import Mathlib

/-!
Verification development for the Tongyi-Agent repository.

Each Python module relevant to the checked claims is shallowly embedded as
executable Lean definitions that mirror the source line by line:

* `src/delegation_policy.py`  — `pyTruncate`, `pyCompress`, `AgentBudget`,
  `DelegationPolicy` (`allow` / `record`);
* `src/adaptive_planner.py`   — `tierPaths`, `plan_stages`;
* `config.py`                 — `ModelRouter`;
* `src/cas_store.py`          — `casPut` / `casGet`;
* `src/verifier_gate.py`      — `verify_claim` and its rule helpers;
* `src/tool_registry.py`      — the `read_file` branch of `execute_tool`;
* `src/code_search.py`        — `CodeSearch.search` and its helpers;
* `src/react_parser.py`       — `parse_response` / `extract_final_answer`.

Python strings are modelled as Lean `String` / `List Char`; `str.split()`'s
whitespace set is modelled by the ASCII whitespace characters (space, tab,
newline, carriage return, vertical tab, form feed), which is what the
repository's data exercises.  Machine floats appear only as the constant
confidences 0.2 / 0.8 and the unused `mtime` field; they are modelled as
exact rationals.
-/

/-- ASCII model of Python's `str.isspace` / default `str.split()` separator
set. -/
def pyIsSpace (c : Char) : Bool :=
  c == ' ' || c == '\t' || c == '\n' || c == '\r' || c == '\x0b' || c == '\x0c'

/-- Helper for `pySplit`: walks the characters, accumulating the current
(reversed) token, mirroring CPython's whitespace `str.split()`. -/
def pySplitChars : List Char → List Char → List (List Char)
  | [], acc => if acc.isEmpty then [] else [acc.reverse]
  | c :: cs, acc =>
    if pyIsSpace c then
      if acc.isEmpty then pySplitChars cs [] else acc.reverse :: pySplitChars cs []
    else pySplitChars cs (c :: acc)

/-- Python `text.split()` (split on whitespace runs, no empty tokens). -/
def pySplit (s : String) : List String :=
  (pySplitChars s.data []).map (fun cs => ⟨cs⟩)

/-- Python `" ".join(tokens)` at the character level. -/
def joinSpaces : List (List Char) → List Char
  | [] => []
  | [w] => w
  | w :: ws => w ++ (' ' :: joinSpaces ws)

/-- Python `list.dropWhile`-style strip of both ends; models `str.strip()`
(ASCII whitespace). -/
def pyStripL (l : List Char) : List Char :=
  (((l.dropWhile pyIsSpace).reverse.dropWhile pyIsSpace)).reverse

/-- Python `s.strip()`. -/
def pyStripString (s : String) : String :=
  ⟨pyStripL s.data⟩

/-- Index of the last occurrence of `'.'`, i.e. Python `s.rfind "."` restricted
to found/not-found (`-1` is modelled as `none`). -/
def rfindDotIdx : List Char → Nat → Option Nat
  | [], _ => none
  | c :: cs, i =>
    match rfindDotIdx cs (i + 1) with
    | some j => some j
    | none => if c == '.' then some i else none

/-- `_truncate(text, max_tokens)` from `src/delegation_policy.py`: keep the
text if it has at most `max_tokens` whitespace tokens, otherwise join the
first `max_tokens` tokens and append `" …"`. -/
def pyTruncate (text : String) (maxTokens : Nat) : String :=
  let tokens := pySplitChars text.data []
  if tokens.length ≤ maxTokens then text
  else ⟨joinSpaces (tokens.take maxTokens) ++ [' ', '…']⟩

/-- `_compress(text, max_tokens)` from `src/delegation_policy.py`: truncate,
then prefer to cut at the last `'.'` when it sits after character position
20. -/
def pyCompress (text : String) (maxTokens : Nat) : String :=
  if text = "" then ""
  else
    let shortened := pyTruncate text maxTokens
    match rfindDotIdx shortened.data 0 with
    | some p => if 20 < p then ⟨shortened.data.take (p + 1)⟩ else shortened
    | none => shortened

/-- `AgentBudget` dataclass from `src/delegation_policy.py`. -/
structure AgentBudget where
  maxCalls : Nat
  maxTokens : Nat
  callsUsed : Nat := 0
  tokensUsed : Nat := 0
deriving DecidableEq, Repr

/-- `AgentBudget.consume`. -/
def AgentBudget.consume (b : AgentBudget) (tokens : Nat) : AgentBudget :=
  { b with callsUsed := b.callsUsed + 1, tokensUsed := b.tokensUsed + tokens }

/-- `AgentBudget.remaining_tokens` (`max(0, max_tokens - tokens_used)`;
truncated `Nat` subtraction is exactly Python's `max(0, ·)`). -/
def AgentBudget.remainingTokens (b : AgentBudget) : Nat :=
  b.maxTokens - b.tokensUsed

/-- `AgentBudget.at_limit`. -/
def AgentBudget.atLimit (b : AgentBudget) : Bool :=
  b.maxCalls ≤ b.callsUsed || b.maxTokens ≤ b.tokensUsed

/-- `DelegationPolicy` dataclass: the budget dict is modelled as an
association list (Python dict keys are unique; the model never relies on
duplicates). -/
structure DelegationPolicy where
  agentBudgets : List (String × AgentBudget)
  defaultTokens : Nat := 400
  metrics : List (String × Nat) := []
deriving DecidableEq, Repr

/-- `self.agent_budgets.get(agent_id)`. -/
def lookupBudget (p : DelegationPolicy) (agentId : String) : Option AgentBudget :=
  (p.agentBudgets.find? (fun e => e.1 == agentId)).map (·.2)

/-- Write back an updated budget for `agent_id` (in-place dict mutation). -/
def setBudget (p : DelegationPolicy) (agentId : String) (b : AgentBudget) :
    DelegationPolicy :=
  { p with agentBudgets :=
      p.agentBudgets.map (fun e => if e.1 == agentId then (e.1, b) else e) }

/-- `DelegationPolicy._inc_metric`. -/
def incMetric (p : DelegationPolicy) (key : String) : DelegationPolicy :=
  { p with metrics :=
      if (p.metrics.find? (fun e => e.1 == key)).isSome then
        p.metrics.map (fun e => if e.1 == key then (e.1, e.2 + 1) else e)
      else p.metrics ++ [(key, 1)] }

/-- `DelegationPolicy.allow`: `False` when no budget exists; otherwise
`not at_limit()`, incrementing the `deny.<agent>` metric on refusal. -/
def DelegationPolicy.allow (p : DelegationPolicy) (agentId : String) :
    Bool × DelegationPolicy :=
  match lookupBudget p agentId with
  | none => (false, p)
  | some b =>
    if b.atLimit then (false, incMetric p ("deny." ++ agentId))
    else (true, p)

/-- `DelegationPolicy.record`: compress to `min(remaining_tokens,
default_tokens)` tokens, then consume the compressed token count.  The
Python `ValueError` on an unknown agent is modelled by `none`. -/
def DelegationPolicy.record (p : DelegationPolicy) (agentId : String)
    (responseText : String) : Option (String × DelegationPolicy) :=
  match lookupBudget p agentId with
  | none => none
  | some b =>
    let compressed := pyCompress responseText (min b.remainingTokens p.defaultTokens)
    let compressedTokens := (pySplit compressed).length
    let p1 := setBudget p agentId (b.consume compressedTokens)
    some (compressed, incMetric (incMetric p1 ("calls." ++ agentId)) "calls.total")

/-- One allow-guarded delegation event, exactly the guard used by
`DelegateTool.run` in `src/orchestrator_local.py`: `record` happens only
when the preceding `allow` returned `True`. -/
def guardedStep (p : DelegationPolicy) (ev : String × String) : DelegationPolicy :=
  let res := p.allow ev.1
  if res.1 then
    match res.2.record ev.1 ev.2 with
    | some pr => pr.2
    | none => res.2
  else res.2

/-- A run of allow-guarded delegation events. -/
def runEvents (p : DelegationPolicy) (evs : List (String × String)) :
    DelegationPolicy :=
  evs.foldl guardedStep p

/-- Token counter equivalent to `(pySplitChars l acc).length`; `inWord` says
whether a token is already open. -/
def tokCount : List Char → Bool → Nat
  | [], _ => 0
  | c :: cs, inWord =>
    if pyIsSpace c then tokCount cs false
    else if inWord then tokCount cs true
    else tokCount cs true + 1

theorem length_pySplitChars (l : List Char) :
    ∀ acc, (pySplitChars l acc).length =
      tokCount l (!acc.isEmpty) + (if acc.isEmpty then 0 else 1) := by
  induction l with
  | nil =>
    intro acc
    cases acc <;> simp [pySplitChars, tokCount, List.isEmpty]
  | cons c cs ih =>
    intro acc
    by_cases hc : pyIsSpace c = true
    · cases acc <;> simp [pySplitChars, tokCount, hc, List.isEmpty, ih]
    · have hc' : pyIsSpace c = false := by simpa using hc
      cases acc <;> simp [pySplitChars, tokCount, hc', List.isEmpty, ih (c :: _)]

theorem tokCount_true_le_false (l : List Char) : tokCount l true ≤ tokCount l false := by
  cases l with
  | nil => simp [tokCount]
  | cons c cs =>
    by_cases hc : pyIsSpace c = true
    · simp [tokCount, hc]
    · have hc' : pyIsSpace c = false := by simpa using hc
      simp [tokCount, hc']

theorem tokCount_append (l₁ l₂ : List Char) :
    ∀ b, tokCount (l₁ ++ l₂) b ≤ tokCount l₁ b + tokCount l₂ false := by
  induction l₁ with
  | nil =>
    intro b
    cases b
    · simp [tokCount]
    · simpa [tokCount] using tokCount_true_le_false l₂
  | cons c cs ih =>
    intro b
    by_cases hc : pyIsSpace c = true
    · simpa [tokCount, hc] using ih false
    · have hc' : pyIsSpace c = false := by simpa using hc
      cases b
      · have h1 : tokCount (c :: cs ++ l₂) false = tokCount (cs ++ l₂) true + 1 := by
          simp [tokCount, hc']
        have h2 : tokCount (c :: cs) false = tokCount cs true + 1 := by
          simp [tokCount, hc']
        have h3 := ih true
        show tokCount (c :: cs ++ l₂) false ≤ tokCount (c :: cs) false + tokCount l₂ false
        omega
      · simpa [tokCount, hc'] using ih true

theorem tokCount_take (l : List Char) : ∀ n b, tokCount (l.take n) b ≤ tokCount l b := by
  induction l with
  | nil => intro n b; simp [tokCount]
  | cons c cs ih =>
    intro n b
    cases n with
    | zero => simp [tokCount]
    | succ m =>
      by_cases hc : pyIsSpace c = true
      · simpa [tokCount, hc] using ih m false
      · have hc' : pyIsSpace c = false := by simpa using hc
        cases b
        · have := ih m true
          simp only [List.take_succ_cons, tokCount, hc', if_false, Bool.false_eq_true]
          omega
        · simpa [tokCount, hc'] using ih m true

theorem tokCount_nospace_true (l : List Char) (h : ∀ c ∈ l, pyIsSpace c = false) :
    tokCount l true = 0 := by
  induction l with
  | nil => simp [tokCount]
  | cons c cs ih =>
    have hc := h c (by simp)
    simp [tokCount, hc, ih (fun d hd => h d (by simp [hd]))]

theorem tokCount_single (w : List Char) (hw : w ≠ [])
    (hns : ∀ c ∈ w, pyIsSpace c = false) : tokCount w false = 1 := by
  cases w with
  | nil => exact absurd rfl hw
  | cons c cs =>
    have hc := hns c (by simp)
    simp [tokCount, hc, tokCount_nospace_true cs (fun d hd => hns d (by simp [hd]))]

theorem pySplitChars_tokens (l : List Char) :
    ∀ acc, (∀ c ∈ acc, pyIsSpace c = false) →
      ∀ w ∈ pySplitChars l acc, w ≠ [] ∧ ∀ c ∈ w, pyIsSpace c = false := by
  induction l with
  | nil =>
    intro acc hacc w hw
    cases acc with
    | nil => simp [pySplitChars] at hw
    | cons a as =>
      simp [pySplitChars, List.isEmpty] at hw
      subst hw
      refine ⟨by simp, fun c hc => hacc c ?_⟩
      have h' : c ∈ as ∨ c = a := by simpa using hc
      simp only [List.mem_cons]
      tauto
  | cons c cs ih =>
    intro acc hacc w hw
    by_cases hc : pyIsSpace c = true
    · cases acc with
      | nil =>
        simp only [pySplitChars, hc, if_true, List.isEmpty] at hw
        exact ih [] (by simp) w hw
      | cons a as =>
        simp only [pySplitChars, hc, if_true, List.isEmpty] at hw
        rcases (List.mem_cons).1 hw with h | h
        · subst h
          refine ⟨by simp, fun d hd => hacc d ?_⟩
          have h' : d ∈ as ∨ d = a := by simpa using hd
          simp only [List.mem_cons]
          tauto
        · exact ih [] (by simp) w h
    · have hc' : pyIsSpace c = false := by simpa using hc
      simp only [pySplitChars, hc', if_false, Bool.false_eq_true] at hw
      refine ih (c :: acc) ?_ w hw
      intro d hd
      rcases (List.mem_cons).1 hd with h | h
      · subst h; exact hc'
      · exact hacc d h

theorem tokCount_joinSpaces (ws : List (List Char))
    (h : ∀ w ∈ ws, w ≠ [] ∧ ∀ c ∈ w, pyIsSpace c = false) :
    tokCount (joinSpaces ws) false ≤ ws.length := by
  induction ws with
  | nil => simp [joinSpaces, tokCount]
  | cons w ws ih =>
    cases ws with
    | nil =>
      have hw := h w (by simp)
      simp [joinSpaces, tokCount_single w hw.1 hw.2]
    | cons w' ws' =>
      have hj : joinSpaces (w :: w' :: ws') = w ++ (' ' :: joinSpaces (w' :: ws')) := rfl
      have hbound := tokCount_append w (' ' :: joinSpaces (w' :: ws')) false
      have hw := h w (by simp)
      have hs : tokCount (' ' :: joinSpaces (w' :: ws')) false =
          tokCount (joinSpaces (w' :: ws')) false := by
        simp [tokCount, pyIsSpace]
      have ih' := ih (fun u hu => h u (by simp [List.mem_cons] at hu ⊢; tauto))
      rw [hj]
      calc tokCount (w ++ (' ' :: joinSpaces (w' :: ws'))) false
          ≤ tokCount w false + tokCount (' ' :: joinSpaces (w' :: ws')) false := hbound
        _ = 1 + tokCount (joinSpaces (w' :: ws')) false := by
            rw [tokCount_single w hw.1 hw.2, hs]
        _ ≤ 1 + (w' :: ws').length := by omega
        _ = (w :: w' :: ws').length := by simp only [List.length_cons]; omega

theorem tokCount_pyTruncate (text : String) (cap : Nat) :
    tokCount (pyTruncate text cap).data false ≤ cap + 1 := by
  unfold pyTruncate
  by_cases h : (pySplitChars text.data []).length ≤ cap
  · have := length_pySplitChars text.data []
    simp only [h, if_true]
    simp [List.isEmpty] at this
    omega
  · simp only [h, if_false]
    have happ := tokCount_append (joinSpaces ((pySplitChars text.data []).take cap))
      [' ', '…'] false
    have hell : tokCount [' ', '…'] false = 1 := by decide
    have htoks := pySplitChars_tokens text.data [] (by simp)
    have hjoin : tokCount (joinSpaces ((pySplitChars text.data []).take cap)) false ≤
        ((pySplitChars text.data []).take cap).length := by
      exact tokCount_joinSpaces _ (fun w hw => htoks w (List.take_subset _ _ hw))
    have hlen : ((pySplitChars text.data []).take cap).length ≤ cap := by
      simp [List.length_take]
    show tokCount (joinSpaces ((pySplitChars text.data []).take cap) ++ [' ', '…']) false ≤
      cap + 1
    omega

theorem tokens_pyCompress_le (text : String) (cap : Nat) :
    (pySplit (pyCompress text cap)).length ≤ cap + 1 := by
  have hlen : ∀ s : String, (pySplit s).length = tokCount s.data false := by
    intro s
    have := length_pySplitChars s.data []
    simp [pySplit]
    simpa [List.isEmpty] using this
  rw [hlen]
  unfold pyCompress
  by_cases h0 : text = ""
  · simp [h0, tokCount]
  · simp only [h0, if_false]
    cases hfind : rfindDotIdx (pyTruncate text cap).data 0 with
    | none => simpa [hfind] using tokCount_pyTruncate text cap
    | some p =>
      by_cases hp : 20 < p
      · have htake := tokCount_take (pyTruncate text cap).data (p + 1) false
        have := tokCount_pyTruncate text cap
        simp only [hfind, hp, if_true]
        show tokCount ((pyTruncate text cap).data.take (p + 1)) false ≤ cap + 1
        omega
      · simpa [hfind, hp] using tokCount_pyTruncate text cap

/-- Per-budget soundness invariant that the code actually maintains: calls
stay within `max_calls`, tokens may overshoot `max_tokens` by at most the
single appended ellipsis token. -/
def budgetOk (b : AgentBudget) : Prop :=
  b.callsUsed ≤ b.maxCalls ∧ b.tokensUsed ≤ b.maxTokens + 1

/-- The invariant over all budgets of a policy. -/
def policyInv (p : DelegationPolicy) : Prop :=
  ∀ e ∈ p.agentBudgets, budgetOk e.2

theorem guardedStep_inv (p : DelegationPolicy) (ev : String × String)
    (hp : policyInv p) : policyInv (guardedStep p ev) := by
  unfold guardedStep
  cases hb : lookupBudget p ev.1 with
  | none => simp [DelegationPolicy.allow, hb]; exact hp
  | some b =>
    by_cases hl : b.atLimit = true
    · simpa [DelegationPolicy.allow, hb, hl, policyInv, incMetric] using hp
    · have hl' : b.atLimit = false := by simpa using hl
      have hcalls : b.callsUsed < b.maxCalls ∧ b.tokensUsed < b.maxTokens := by
        simpa [AgentBudget.atLimit, Nat.lt_iff_add_one_le] using hl'
      simp only [DelegationPolicy.allow, hb, hl', if_false, Bool.false_eq_true,
        DelegationPolicy.record, if_true]
      intro e he
      simp only [incMetric, setBudget, List.mem_map] at he
      obtain ⟨x, hx, hxe⟩ := he
      by_cases hkey : (x.1 == ev.1) = true
      · subst hxe
        simp only [hkey, if_true]
        have hct := tokens_pyCompress_le ev.2 (min b.remainingTokens p.defaultTokens)
        have hmin : min b.remainingTokens p.defaultTokens ≤ b.maxTokens - b.tokensUsed := by
          simp [AgentBudget.remainingTokens]
        constructor
        · simpa [AgentBudget.consume] using hcalls.1
        · simp only [AgentBudget.consume]
          omega
      · subst hxe
        simp only [hkey, if_false, Bool.false_eq_true]
        exact hp x hx

theorem runEvents_inv (p : DelegationPolicy) (evs : List (String × String))
    (hp : policyInv p) : policyInv (runEvents p evs) := by
  induction evs generalizing p with
  | nil => simpa [runEvents] using hp
  | cons ev evs ih =>
    have : runEvents p (ev :: evs) = runEvents (guardedStep p ev) evs := rfl
    rw [this]
    exact ih _ (guardedStep_inv p ev hp)

/-- C1 (amended). In any run in which every `record` is preceded by an
`allow` that returned `True` (the `DelegateTool.run` guard), starting from
unconsumed budgets, every budget satisfies `calls_used ≤ max_calls` and
`tokens_used ≤ max_tokens + 1` at every observation point.  The `+ 1` is
forced by the ellipsis token that `_truncate` appends after cutting at
`max_tokens` tokens; the claimed bound `tokens_used ≤ max_tokens` is
refuted by `delegation_budget_counterexample`. -/
theorem delegation_budget_soundness (p0 : DelegationPolicy)
    (h0 : ∀ e ∈ p0.agentBudgets, e.2.callsUsed = 0 ∧ e.2.tokensUsed = 0)
    (evs : List (String × String)) :
    ∀ e ∈ (runEvents p0 evs).agentBudgets,
      e.2.callsUsed ≤ e.2.maxCalls ∧ e.2.tokensUsed ≤ e.2.maxTokens + 1 := by
  have : policyInv p0 := by
    intro e he
    have := h0 e he
    constructor <;> omega
  exact runEvents_inv p0 evs this

/-- Concrete witness run for `delegation_budget_soundness`. -/
theorem delegation_budget_soundness_witness :
    (∀ e ∈ ({ agentBudgets := [("a", { maxCalls := 2, maxTokens := 10 })] } :
        DelegationPolicy).agentBudgets, e.2.callsUsed = 0 ∧ e.2.tokensUsed = 0) ∧
    ∀ e ∈ (runEvents { agentBudgets := [("a", { maxCalls := 2, maxTokens := 10 })] }
        [("a", "hello world")]).agentBudgets,
      e.2.callsUsed ≤ e.2.maxCalls ∧ e.2.tokensUsed ≤ e.2.maxTokens + 1 :=
  ⟨by decide, delegation_budget_soundness _ (by decide) _⟩

/-- The delegation policy used by the budget counterexample: one agent with
`max_calls = 1`, `max_tokens = 5`. -/
def cexPolicy : DelegationPolicy :=
  { agentBudgets := [("a", { maxCalls := 1, maxTokens := 5 })] }

/-- C1 counterexample: a single allow-guarded `record` of a six-token text
with no sentence boundary drives `tokens_used` to `6 > 5 = max_tokens`
(`_truncate` keeps 5 tokens and appends the `…` token), refuting
`tokens_used(a) ≤ max_tokens(a)` as claimed. -/
theorem delegation_budget_counterexample :
    (cexPolicy.allow "a").1 = true ∧
    lookupBudget (runEvents cexPolicy [("a", "t1 t2 t3 t4 t5 t6")]) "a" =
      some { maxCalls := 1, maxTokens := 5, callsUsed := 1, tokensUsed := 6 } ∧
    ¬ (6 ≤ 5) := by decide

/-- `ManifestEntry` dataclass from `src/adaptive_planner.py` (`mtime` is a
float in Python, modelled as an exact rational; it is never inspected by the
planner). -/
structure ManifestEntry where
  path : String
  size : Nat
  mtime : ℚ
deriving DecidableEq, Repr

/-- `PlanStage` dataclass from `src/adaptive_planner.py`. -/
structure PlanStage where
  name : String
  paths : List String
  maxConcurrency : Nat
  notes : String
deriving DecidableEq, Repr

/-- `path.replace("\\", "/")`. -/
def normSlashes (p : String) : String :=
  ⟨p.data.map (fun c => if c = '\\' then '/' else c)⟩

/-- `HIGH_SIGNAL_DIRS` from `src/adaptive_planner.py`. -/
def HIGH_SIGNAL_DIRS : List String := ["src", "schemas", "docs"]

/-- `rel.split("/")[0]`: the first `/`-separated component after normalizing
backslashes (`split` always yields at least one component, so the source's
`len(parts) == 0` guard is unreachable). -/
def topLevelDir (p : String) : String :=
  ⟨(normSlashes p).data.takeWhile (fun c => c ≠ '/')⟩

/-- One loop iteration of `_tier_paths`: route the entry's path to tier1 when
its top-level directory is high-signal, else to tier2. -/
def tierStep (acc : List String × List String) (e : ManifestEntry) :
    List String × List String :=
  if topLevelDir e.path ∈ HIGH_SIGNAL_DIRS then (acc.1 ++ [e.path], acc.2)
  else (acc.1, acc.2 ++ [e.path])

/-- Kernel-computable lexicographic (code-point) comparison on character
lists; agrees with `String` order (`charListLeb_iff`). -/
def charListLeb : List Char → List Char → Bool
  | [], _ => true
  | _ :: _, [] => false
  | a :: as, b :: bs =>
    if a < b then true
    else if b < a then false
    else charListLeb as bs

theorem charListLeb_iff_not_lt :
    ∀ as bs : List Char, charListLeb as bs = true ↔ ¬ bs.lt as := by
  intro as
  induction as with
  | nil =>
    intro bs
    simp only [charListLeb, true_iff]
    intro h
    cases h
  | cons a as ih =>
    intro bs
    cases bs with
    | nil =>
      simp only [charListLeb]
      constructor
      · intro h; cases h
      · intro h; exact absurd (List.lt.nil a as) h
    | cons b bs =>
      by_cases hab : a < b
      · simp only [charListLeb, hab, if_true, true_iff]
        intro h
        cases h with
        | head _ _ hba => exact absurd hab (lt_asymm hba)
        | tail h1 h2 _ => exact h2 hab
      · by_cases hba : b < a
        · simp only [charListLeb, hab, hba, if_true, if_false]
          constructor
          · intro h; cases h
          · intro h; exact absurd (List.lt.head bs as hba) h
        · simp only [charListLeb, hab, hba, if_false]
          rw [ih bs]
          constructor
          · intro h hlt
            cases hlt with
            | head _ _ hba' => exact hba hba'
            | tail _ _ htl => exact h htl
          · intro h htl
            exact h (List.lt.tail hba hab htl)

theorem charListLeb_iff (a b : String) : charListLeb a.data b.data = true ↔ a ≤ b := by
  rw [String.le_iff_toList_le, ← not_lt]
  rw [show (b.toList < a.toList) ↔ (b.data).lt (a.data) from
    Iff.symm (List.lt_iff_lex_lt _ _)]
  exact charListLeb_iff_not_lt a.data b.data

/-- The insertion-sort order used to model Python `sorted`. -/
def pyStrOrd : String → String → Prop :=
  fun a b => charListLeb a.data b.data = true

instance : DecidableRel pyStrOrd := fun a b => by
  unfold pyStrOrd
  infer_instance

instance : IsTotal String pyStrOrd := by
  constructor
  intro a b
  rcases le_total a b with h | h
  · exact Or.inl ((charListLeb_iff a b).2 h)
  · exact Or.inr ((charListLeb_iff b a).2 h)

instance : IsTrans String pyStrOrd := by
  constructor
  intro a b c hab hbc
  exact (charListLeb_iff a c).2
    (le_trans ((charListLeb_iff a b).1 hab) ((charListLeb_iff b c).1 hbc))

/-- Python `sorted` on strings (lexicographic by code point; stable sorting of
strings is the unique sorted permutation). -/
def pySorted (l : List String) : List String :=
  List.insertionSort pyStrOrd l

/-- `_tier_paths(entries)` from `src/adaptive_planner.py`. -/
def tierPaths (entries : List ManifestEntry) : List String × List String :=
  let raw := entries.foldl tierStep ([], [])
  (pySorted raw.1, pySorted raw.2)

/-- The local `cap(paths)` helper of `plan_stages`. -/
def planCap (base : Nat) (paths : List String) : Nat :=
  if paths.isEmpty then 0
  else max 4 (min base (max 4 (paths.length / 8)))

/-- `plan_stages(entries, base_concurrency)` from `src/adaptive_planner.py`.
Note the tier2 concurrency is `max(2, cap(tier2) // 2)`, i.e. derived from
tier2's own path count. -/
def plan_stages (entries : List ManifestEntry) (base : Nat := 16) : List PlanStage :=
  let tp := tierPaths entries
  [ { name := "manifest", paths := [], maxConcurrency := 1,
      notes := "sequential metadata scan" },
    { name := "tier1", paths := tp.1, maxConcurrency := planCap base tp.1,
      notes := "high-signal dirs first" },
    { name := "tier2", paths := tp.2, maxConcurrency := max 2 (planCap base tp.2 / 2),
      notes := "remaining dirs throttled" } ]

theorem foldl_tierStep_mem1 (entries : List ManifestEntry) :
    ∀ (acc : List String × List String) x,
      x ∈ (entries.foldl tierStep acc).1 →
      x ∈ acc.1 ∨ topLevelDir x ∈ HIGH_SIGNAL_DIRS := by
  induction entries with
  | nil => intro acc x hx; exact Or.inl hx
  | cons e rest ih =>
    intro acc x hx
    have := ih (tierStep acc e) x hx
    rcases this with h | h
    · unfold tierStep at h
      by_cases hc : topLevelDir e.path ∈ HIGH_SIGNAL_DIRS
      · simp only [hc, if_true] at h
        rcases List.mem_append.1 h with h1 | h1
        · exact Or.inl h1
        · simp at h1
          subst h1
          exact Or.inr hc
      · simp only [hc, if_false] at h
        exact Or.inl h
    · exact Or.inr h

theorem foldl_tierStep_mem2 (entries : List ManifestEntry) :
    ∀ (acc : List String × List String) x,
      x ∈ (entries.foldl tierStep acc).2 →
      x ∈ acc.2 ∨ topLevelDir x ∉ HIGH_SIGNAL_DIRS := by
  induction entries with
  | nil => intro acc x hx; exact Or.inl hx
  | cons e rest ih =>
    intro acc x hx
    have := ih (tierStep acc e) x hx
    rcases this with h | h
    · unfold tierStep at h
      by_cases hc : topLevelDir e.path ∈ HIGH_SIGNAL_DIRS
      · simp only [hc, if_true] at h
        exact Or.inl h
      · simp only [hc, if_false] at h
        rcases List.mem_append.1 h with h1 | h1
        · exact Or.inl h1
        · simp at h1
          subst h1
          exact Or.inr hc
    · exact Or.inr h

theorem foldl_tierStep_mono1 (entries : List ManifestEntry) :
    ∀ (acc : List String × List String) x,
      x ∈ acc.1 → x ∈ (entries.foldl tierStep acc).1 := by
  induction entries with
  | nil => intro acc x hx; exact hx
  | cons e rest ih =>
    intro acc x hx
    refine ih (tierStep acc e) x ?_
    unfold tierStep
    by_cases hc : topLevelDir e.path ∈ HIGH_SIGNAL_DIRS <;>
      simp [hc, List.mem_append, hx]

theorem foldl_tierStep_mono2 (entries : List ManifestEntry) :
    ∀ (acc : List String × List String) x,
      x ∈ acc.2 → x ∈ (entries.foldl tierStep acc).2 := by
  induction entries with
  | nil => intro acc x hx; exact hx
  | cons e rest ih =>
    intro acc x hx
    refine ih (tierStep acc e) x ?_
    unfold tierStep
    by_cases hc : topLevelDir e.path ∈ HIGH_SIGNAL_DIRS <;>
      simp [hc, List.mem_append, hx]

theorem foldl_tierStep_total (entries : List ManifestEntry) :
    ∀ (acc : List String × List String) (e : ManifestEntry), e ∈ entries →
      e.path ∈ (entries.foldl tierStep acc).1 ∨
      e.path ∈ (entries.foldl tierStep acc).2 := by
  induction entries with
  | nil => intro acc e he; simp at he
  | cons e0 rest ih =>
    intro acc e he
    rcases List.mem_cons.1 he with h | h
    · subst h
      unfold tierStep
      by_cases hc : topLevelDir e.path ∈ HIGH_SIGNAL_DIRS
      · left
        refine foldl_tierStep_mono1 rest _ e.path ?_
        simp [hc]
      · right
        refine foldl_tierStep_mono2 rest _ e.path ?_
        simp [hc]
    · exact ih (tierStep acc e0) e h

/-- C7. `plan_stages` yields exactly `manifest` (no paths, concurrency 1),
then `tier1`, then `tier2`; every tier1 path has a high-signal top-level
directory, no tier2 path does, every entry lands in one of the two tiers,
and each tier's paths are sorted lexicographically. -/
theorem plan_stage_ordering (entries : List ManifestEntry) (base : Nat) :
    ∃ t1 t2 c1 c2,
      plan_stages entries base =
        [ { name := "manifest", paths := [], maxConcurrency := 1,
            notes := "sequential metadata scan" },
          { name := "tier1", paths := t1, maxConcurrency := c1,
            notes := "high-signal dirs first" },
          { name := "tier2", paths := t2, maxConcurrency := c2,
            notes := "remaining dirs throttled" } ] ∧
      t1.Sorted (· ≤ ·) ∧ t2.Sorted (· ≤ ·) ∧
      (∀ p ∈ t1, topLevelDir p ∈ HIGH_SIGNAL_DIRS) ∧
      (∀ p ∈ t2, topLevelDir p ∉ HIGH_SIGNAL_DIRS) ∧
      (∀ e ∈ entries, e.path ∈ t1 ∨ e.path ∈ t2) := by
  refine ⟨(tierPaths entries).1, (tierPaths entries).2, _, _, rfl, ?_, ?_, ?_, ?_, ?_⟩
  · exact (List.sorted_insertionSort pyStrOrd _).imp (fun h => (charListLeb_iff _ _).1 h)
  · exact (List.sorted_insertionSort pyStrOrd _).imp (fun h => (charListLeb_iff _ _).1 h)
  · intro p hp
    have hp' : p ∈ (entries.foldl tierStep ([], [])).1 :=
      (List.perm_insertionSort _ _).mem_iff.1 hp
    rcases foldl_tierStep_mem1 entries ([], []) p hp' with h | h
    · simp at h
    · exact h
  · intro p hp
    have hp' : p ∈ (entries.foldl tierStep ([], [])).2 :=
      (List.perm_insertionSort _ _).mem_iff.1 hp
    rcases foldl_tierStep_mem2 entries ([], []) p hp' with h | h
    · simp at h
    · exact h
  · intro e he
    rcases foldl_tierStep_total entries ([], []) e he with h | h
    · exact Or.inl ((List.perm_insertionSort _ _).mem_iff.2 h)
    · exact Or.inr ((List.perm_insertionSort _ _).mem_iff.2 h)

/-- A 48-file manifest whose paths all live under `src/`. -/
def cexEntries : List ManifestEntry :=
  (List.range 48).map
    (fun i => { path := "src/f" ++ toString (10 + i) ++ ".py", size := 1, mtime := 0 })

/-- C6 counterexample: with 48 tier1 paths and no tier2 paths, the tier1 cap
is `6`, so the claimed formula `max(2, tier1_cap / 2)` gives `3`; the code
computes tier2 concurrency from tier2's own (empty) path list and returns
`2`. -/
theorem tier2_concurrency_counterexample :
    ((plan_stages cexEntries 16).map (fun s => (s.name, s.paths.length, s.maxConcurrency)) =
      [("manifest", 0, 1), ("tier1", 48, 6), ("tier2", 0, 2)]) ∧
    (2 : Nat) ≠ max 2 (6 / 2) := by decide

/-- C6 (amended). The tier2 stage's concurrency is `max(2, cap(tier2) // 2)`
where `cap` is the volume formula applied to tier2's *own* path list
(`0` when tier2 is empty) — not to the tier1 cap; in particular an empty
tier2 always gets concurrency 2 regardless of tier1's size. -/
theorem tier2_concurrency_amended (entries : List ManifestEntry) (base : Nat) :
    (plan_stages entries base)[2]? =
      some { name := "tier2", paths := (tierPaths entries).2,
             maxConcurrency :=
               max 2 ((if (tierPaths entries).2.isEmpty then 0
                 else max 4 (min base (max 4 ((tierPaths entries).2.length / 8)))) / 2),
             notes := "remaining dirs throttled" } ∧
    ((tierPaths entries).2 = [] →
      (plan_stages entries base)[2]? =
        some { name := "tier2", paths := [], maxConcurrency := 2,
               notes := "remaining dirs throttled" }) := by
  constructor
  · rfl
  · intro h
    simp [plan_stages, planCap, h]

/-- Concrete witness for the empty-tier2 clause of
`tier2_concurrency_amended`. -/
theorem tier2_concurrency_amended_witness :
    (plan_stages [] 16)[2]? =
      some { name := "tier2", paths := [], maxConcurrency := 2,
             notes := "remaining dirs throttled" } :=
  (tier2_concurrency_amended [] 16).2 rfl

/-- `ModelRouter` from `config.py`.  The constructor strips the model names,
drops a falsy (empty/None) fallback model, and clamps a non-positive
interval to 0. -/
structure ModelRouter where
  primaryModel : String
  freeModel : Option String
  freeInterval : Nat
  counter : Nat
deriving DecidableEq, Repr

/-- `ModelRouter.__init__(primary_model, free_model, free_interval)`. -/
def mkModelRouter (primary : String) (free : Option String) (interval : Int) :
    ModelRouter :=
  { primaryModel := pyStripString primary,
    freeModel :=
      match free with
      | none => none
      | some f => if f = "" then none else some (pyStripString f),
    freeInterval := if 0 < interval then interval.toNat else 0,
    counter := 0 }

/-- `ModelRouter.next_model()`: increment the counter, return the fallback on
every `free_interval`-th call (when a non-empty fallback and a non-zero
interval are configured), the primary otherwise. -/
def ModelRouter.nextModel (r : ModelRouter) : String × ModelRouter :=
  let r1 := { r with counter := r.counter + 1 }
  match r1.freeModel with
  | some f =>
    if f ≠ "" ∧ r1.freeInterval ≠ 0 ∧ r1.counter % r1.freeInterval = 0 then (f, r1)
    else (r1.primaryModel, r1)
  | none => (r1.primaryModel, r1)

/-- Advance the router by `n` calls. -/
def ModelRouter.callN : ModelRouter → Nat → ModelRouter
  | r, 0 => r
  | r, n + 1 => ModelRouter.callN (r.nextModel).2 n

/-- The output of the `i`-th (1-based) `next_model()` call. -/
def nthOutput (r : ModelRouter) (i : Nat) : String :=
  ((r.callN (i - 1)).nextModel).1

theorem counter_nextModel (r : ModelRouter) : (r.nextModel).2.counter = r.counter + 1 := by
  unfold ModelRouter.nextModel
  cases r.freeModel with
  | none => rfl
  | some f =>
    by_cases h : f ≠ "" ∧ r.freeInterval ≠ 0 ∧ (r.counter + 1) % r.freeInterval = 0 <;>
      simp [h]

theorem static_nextModel (r : ModelRouter) :
    (r.nextModel).2.primaryModel = r.primaryModel ∧
    (r.nextModel).2.freeModel = r.freeModel ∧
    (r.nextModel).2.freeInterval = r.freeInterval := by
  unfold ModelRouter.nextModel
  cases r.freeModel with
  | none => exact ⟨rfl, rfl, rfl⟩
  | some f =>
    by_cases h : f ≠ "" ∧ r.freeInterval ≠ 0 ∧ (r.counter + 1) % r.freeInterval = 0 <;>
      simp [h]

theorem callN_state (r : ModelRouter) :
    ∀ n, (r.callN n) =
      { primaryModel := r.primaryModel, freeModel := r.freeModel,
        freeInterval := r.freeInterval, counter := r.counter + n } := by
  intro n
  induction n generalizing r with
  | zero => simp [ModelRouter.callN]
  | succ m ih =>
    show ((r.nextModel).2.callN m) = _
    rw [ih (r.nextModel).2]
    have hc := counter_nextModel r
    have hs := static_nextModel r
    rw [hc, hs.1, hs.2.1, hs.2.2]
    congr 1
    omega

/-- C8. With a primary `P`, a fallback `F` that is non-empty after stripping,
and interval `N > 0`, the `i`-th (1-based) `next_model()` call returns the
(stripped) fallback exactly when `i mod N = 0` and the (stripped) primary
otherwise. -/
theorem router_periodicity (P F : String) (N : Int) (i : Nat)
    (hF : pyStripString F ≠ "") (hN : 0 < N) (hi : 1 ≤ i) :
    nthOutput (mkModelRouter P (some F) N) i =
      if i % N.toNat = 0 then pyStripString F else pyStripString P := by
  have hFne : F ≠ "" := by
    intro h
    apply hF
    subst h
    rfl
  unfold nthOutput
  rw [callN_state]
  show (ModelRouter.nextModel _).1 = _
  unfold ModelRouter.nextModel
  simp only [mkModelRouter, hFne, if_false]
  have hii : i - 1 + 1 = i := by omega
  by_cases hmod : i % N.toNat = 0
  · simp [hii, hmod, hF, hN]
  · simp [hii, hmod, hF, hN]

/-- Concrete witness for `router_periodicity`: with interval 3 the third call
returns the fallback. -/
theorem router_periodicity_witness :
    pyStripString " free " ≠ "" ∧
    nthOutput (mkModelRouter "paid" (some " free ") 3) 3 =
      if 3 % (3 : Int).toNat = 0 then pyStripString " free " else pyStripString "paid" :=
  ⟨by decide, router_periodicity "paid" " free " 3 3 (by decide) (by decide) (by decide)⟩

/-- `BlobMeta` dataclass from `src/cas_store.py`. -/
structure BlobMeta where
  key : String
  url : Option String
  fetchedAt : Option String
  contentType : Option String
  size : Nat
  parserVer : String
  outlinks : Option (List String)
deriving DecidableEq, Repr

/-- On-disk state of a `CAS` instance: the `blobs/` directory and the `meta/`
directory, each a map from file name to content.  Blob contents are byte
strings modelled as `List Nat`. -/
structure CASState where
  blobs : List (String × List Nat)
  metaFiles : List (String × BlobMeta)
deriving DecidableEq, Repr

/-- `CAS.make_key(content, parser_ver)`; `hash` abstracts
`hashlib.sha256(...).hexdigest()`. -/
def makeKey (hash : List Nat → String) (content : List Nat) (parserVer : String) :
    String :=
  hash content ++ ":" ++ parserVer

/-- Character test used to split a CAS key at its first colon. -/
def notColon (c : Char) : Bool := c != ':'

/-- `key.partition(":")[0]`: the part of the key before the first colon. -/
def keySha (key : String) : String :=
  ⟨key.data.takeWhile notColon⟩

/-- `CAS._paths(key)`: blob file name and metadata file name, both derived
from the sha portion only. -/
def casPaths (key : String) : String × String :=
  (keySha key, keySha key ++ ".json")

/-- `CAS.put`: write the blob only if absent; (re)write the metadata
unconditionally. -/
def casPut (hash : List Nat → String) (s : CASState) (content : List Nat)
    (url fetchedAt contentType : Option String) (parserVer : String)
    (outlinks : Option (List String)) : String × CASState :=
  let key := makeKey hash content parserVer
  let paths := casPaths key
  let blobs' :=
    if (s.blobs.find? (fun e => e.1 == paths.1)).isSome then s.blobs
    else s.blobs ++ [(paths.1, content)]
  let m : BlobMeta :=
    { key := key, url := url, fetchedAt := fetchedAt, contentType := contentType,
      size := content.length, parserVer := parserVer, outlinks := outlinks }
  let meta' :=
    if (s.metaFiles.find? (fun e => e.1 == paths.2)).isSome then
      s.metaFiles.map (fun e => if e.1 == paths.2 then (e.1, m) else e)
    else s.metaFiles ++ [(paths.2, m)]
  (key, { blobs := blobs', metaFiles := meta' })

/-- `CAS.get(key)`: look up blob and metadata by the sha-derived paths. -/
def casGet (s : CASState) (key : String) : Option (List Nat) × Option BlobMeta :=
  let paths := casPaths key
  ((s.blobs.find? (fun e => e.1 == paths.1)).map (·.2),
   (s.metaFiles.find? (fun e => e.1 == paths.2)).map (·.2))

theorem takeWhile_append_colon (l₁ l₂ : List Char) :
    ((l₁ ++ ':' :: l₂).takeWhile notColon) = l₁.takeWhile notColon := by
  induction l₁ with
  | nil => simp [List.takeWhile, notColon]
  | cons a as ih =>
    by_cases ha : a = ':'
    · simp [List.takeWhile, notColon, ha]
    · simp [List.takeWhile, notColon, ha, ih]

theorem keySha_makeKey (hash : List Nat → String) (content : List Nat)
    (v : String) : keySha (makeKey hash content v) = keySha (hash content) := by
  unfold keySha makeKey
  have h : (hash content ++ ":" ++ v).data = (hash content).data ++ ':' :: v.data := by
    simp [String.data_append]
  rw [h, takeWhile_append_colon]

/-- C10.  `put` and `get` key both stores by the sha portion of the key only,
so two `put`s of the same content under different parser versions produce a
single blob and a single metadata file recording the second version, and a
`get` under the first version returns the content together with the
second-version metadata. -/
theorem cas_parser_version_collision (hash : List Nat → String) (b : List Nat)
    (v1 v2 : String) (u1 u2 f1 f2 c1 c2 : Option String)
    (o1 o2 : Option (List String)) (hv : v1 ≠ v2) :
    (casPut hash (casPut hash { blobs := [], metaFiles := [] } b u1 f1 c1 v1 o1).2
        b u2 f2 c2 v2 o2).2.blobs = [(keySha (hash b), b)] ∧
    (casPut hash (casPut hash { blobs := [], metaFiles := [] } b u1 f1 c1 v1 o1).2
        b u2 f2 c2 v2 o2).2.metaFiles =
      [(keySha (hash b) ++ ".json",
        { key := makeKey hash b v2, url := u2, fetchedAt := f2, contentType := c2,
          size := b.length, parserVer := v2, outlinks := o2 })] ∧
    casGet (casPut hash
          (casPut hash { blobs := [], metaFiles := [] } b u1 f1 c1 v1 o1).2
          b u2 f2 c2 v2 o2).2 (makeKey hash b v1) =
      (some b,
        some { key := makeKey hash b v2, url := u2, fetchedAt := f2,
               contentType := c2, size := b.length, parserVer := v2,
               outlinks := o2 }) := by
  have h1 : keySha (makeKey hash b v1) = keySha (hash b) := keySha_makeKey hash b v1
  have h2 : keySha (makeKey hash b v2) = keySha (hash b) := keySha_makeKey hash b v2
  have hs1 : (casPut hash { blobs := [], metaFiles := [] } b u1 f1 c1 v1 o1).2 =
      { blobs := [(keySha (hash b), b)],
        metaFiles := [(keySha (hash b) ++ ".json",
          { key := makeKey hash b v1, url := u1, fetchedAt := f1, contentType := c1,
            size := b.length, parserVer := v1, outlinks := o1 })] } := by
    simp [casPut, casPaths, h1]
  have hs2 : (casPut hash
        (casPut hash { blobs := [], metaFiles := [] } b u1 f1 c1 v1 o1).2
        b u2 f2 c2 v2 o2).2 =
      { blobs := [(keySha (hash b), b)],
        metaFiles := [(keySha (hash b) ++ ".json",
          { key := makeKey hash b v2, url := u2, fetchedAt := f2, contentType := c2,
            size := b.length, parserVer := v2, outlinks := o2 })] } := by
    rw [hs1]
    simp [casPut, casPaths, h2]
  refine ⟨by rw [hs2], by rw [hs2], ?_⟩
  rw [hs2]
  simp [casGet, casPaths, h1]

/-- Concrete witness for `cas_parser_version_collision`. -/
theorem cas_parser_version_collision_witness :
    ("a" : String) ≠ "b" ∧
    casGet ((casPut (fun _ => "h")
        ((casPut (fun _ => "h") { blobs := [], metaFiles := [] }
          [1] none none none "a" none).2)
        [1] none none none "b" none).2) (makeKey (fun _ => "h") [1] "a") =
      (some [1],
        some { key := makeKey (fun _ => "h") [1] "b", url := none,
               fetchedAt := none, contentType := none, size := 1, parserVer := "b",
               outlinks := none }) :=
  ⟨by decide,
    (cas_parser_version_collision (fun _ => "h") [1] "a" "b" none none none none
      none none none none (by decide)).2.2⟩

/-- Head-is-slash test (`source.startswith('/')`). -/
def startsSlash (l : List Char) : Bool :=
  l.headD ' ' == '/'

/-- Attempt to match `https?://([^/]+)` at the current position: literal
scheme, then a non-empty maximal run of non-`/` characters. -/
def matchHostAt (l : List Char) : Option String :=
  let rest? :=
    if l.take 8 = "https://".data then some (l.drop 8)
    else if l.take 7 = "http://".data then some (l.drop 7)
    else none
  match rest? with
  | none => none
  | some r =>
    let run := r.takeWhile (fun c => c ≠ '/')
    if run.isEmpty then none else some ⟨run⟩

/-- `re.search(r'https?://([^/]+)', source)`: first position where the
pattern matches, returning the captured host. -/
def findUrlHost : List Char → Option String
  | [] => none
  | c :: cs =>
    match matchHostAt (c :: cs) with
    | some h => some h
    | none => findUrlHost cs

/-- `VerifierGate._extract_domain` from `src/verifier_gate.py`. -/
def extractDomain (source : String) : Option String :=
  if source.data.take 7 = "http://".data || source.data.take 8 = "https://".data then
    findUrlHost source.data
  else if startsSlash source.data || source.data.contains ':' then
    some "local_file"
  else none

/-- `source.split(':')[0] if ':' in source else source` (first colon-free
part of a local source). -/
def fileNameOf (source : String) : String :=
  if source.data.contains ':' then ⟨source.data.takeWhile notColon⟩ else source

/-- `VerifierGate._is_def_use_pair`. -/
def isDefUsePair (source : String) : Bool :=
  source.data.contains ':' && 2 ≤ source.data.count ':'

/-- `VerifierGate._has_sufficient_citations`. -/
def hasSufficientCitations (sources : List String) : Bool :=
  2 ≤ sources.length || (sources.length == 1 && isDefUsePair (sources.headD ""))

/-- One iteration of `_has_independent_sources`' collection loop: a
`local_file` source contributes its file name to the file set, any other
(truthy) domain goes into the domain set. -/
def originStep (acc : Finset String × Finset String) (source : String) :
    Finset String × Finset String :=
  match extractDomain source with
  | some d =>
    if d = "local_file" then (acc.1, insert (fileNameOf source) acc.2)
    else if d = "" then acc
    else (insert d acc.1, acc.2)
  | none => acc

/-- The `domains` / `files` sets collected by `_has_independent_sources`. -/
def collectOrigins (sources : List String) : Finset String × Finset String :=
  sources.foldl originStep (∅, ∅)

/-- `VerifierGate._has_independent_sources`. -/
def hasIndependentSources (sources : List String) : Bool :=
  if 2 ≤ sources.length then
    2 ≤ (collectOrigins sources).1.card || 2 ≤ (collectOrigins sources).2.card
  else
    match sources with
    | [] => false
    | s :: _ => isDefUsePair s

/-- `VerifierGate._basic_validation` (the fallback used when no
`RemoteReasoner` client is configured). -/
def basicValidation (_claimText : String) (sources : List String) : Bool :=
  2 ≤ sources.length && sources.any (fun s => !(pyStripL s.data).isEmpty)

/-- `Claim` dataclass from `src/verifier_gate.py` (confidences are the exact
rationals 0.2 / 0.8). -/
structure Claim where
  text : String
  sources : List String
  confidence : ℚ
  verified : Bool
deriving DecidableEq, Repr

/-- `VerifierGate.verify_claim`.  The optional `client` abstracts the
`RemoteReasoner` YES/NO oracle (`_validate_with_tongyi`); `none` is the
fallback mode. -/
def verify_claim (client : Option (String → List String → Bool))
    (claimText : String) (sources : List String) : Claim :=
  if hasSufficientCitations sources = false then
    { text := claimText, sources := sources, confidence := 0, verified := false }
  else if hasIndependentSources sources = false then
    { text := claimText, sources := sources, confidence := 0, verified := false }
  else
    let v :=
      match client with
      | some oracle => oracle claimText sources
      | none => basicValidation claimText sources
    { text := claimText, sources := sources,
      confidence := if v then 4 / 5 else 1 / 5, verified := v }

/-- Number of sources that are non-empty after stripping whitespace. -/
def countNonEmpty (sources : List String) : Nat :=
  (sources.filter (fun s => !(pyStripL s.data).isEmpty)).length

/-- The domain-set contribution of a single source. -/
def domainKey (s : String) : Option String :=
  match extractDomain s with
  | some d => if d = "local_file" then none else if d = "" then none else some d
  | none => none

/-- The file-set contribution of a single source. -/
def fileKey (s : String) : Option String :=
  match extractDomain s with
  | some d => if d = "local_file" then some (fileNameOf s) else none
  | none => none

theorem collectOrigins_eq (sources : List String) :
    ∀ acc : Finset String × Finset String,
      sources.foldl originStep acc =
        (acc.1 ∪ (sources.filterMap domainKey).toFinset,
         acc.2 ∪ (sources.filterMap fileKey).toFinset) := by
  induction sources with
  | nil => intro acc; simp
  | cons s ss ih =>
    intro acc
    show ss.foldl originStep (originStep acc s) = _
    rw [ih (originStep acc s)]
    unfold originStep domainKey fileKey
    cases hd : extractDomain s with
    | none => simp [List.filterMap_cons, hd]
    | some d =>
      by_cases hlf : d = "local_file"
      · simp only [hd, hlf, if_true, List.filterMap_cons]
        simp [Finset.union_insert, Finset.insert_union]
      · by_cases hde : d = ""
        · simp [hd, hlf, hde, List.filterMap_cons]
        · simp only [hd, hlf, hde, if_false, List.filterMap_cons]
          simp [Finset.union_insert, Finset.insert_union, hlf, hde]

theorem mem_dropWhile_of_pred_false {p : Char → Bool} (l : List Char) (c : Char)
    (hmem : c ∈ l) (hc : p c = false) : c ∈ l.dropWhile p := by
  induction l with
  | nil => simp at hmem
  | cons a as ih =>
    by_cases ha : p a = true
    · rw [List.dropWhile_cons_of_pos ha]
      rcases List.mem_cons.1 hmem with h | h
      · subst h; rw [hc] at ha; cases ha
      · exact ih h
    · rw [List.dropWhile_cons_of_neg ha]
      exact hmem

theorem pyStripL_ne_nil_of_mem (l : List Char) (c : Char) (hmem : c ∈ l)
    (hc : pyIsSpace c = false) : pyStripL l ≠ [] := by
  intro hnil
  unfold pyStripL at hnil
  have h1 : c ∈ l.dropWhile pyIsSpace := mem_dropWhile_of_pred_false l c hmem hc
  have h2 : c ∈ (l.dropWhile pyIsSpace).reverse := List.mem_reverse.2 h1
  have h3 : c ∈ (l.dropWhile pyIsSpace).reverse.dropWhile pyIsSpace :=
    mem_dropWhile_of_pred_false _ c h2 hc
  have h4 : c ∈ ((l.dropWhile pyIsSpace).reverse.dropWhile pyIsSpace).reverse :=
    List.mem_reverse.2 h3
  rw [hnil] at h4
  simp at h4

theorem extractDomain_some_nonspace (s : String) (d : String)
    (hd : extractDomain s = some d) : ∃ c ∈ s.data, pyIsSpace c = false := by
  unfold extractDomain at hd
  by_cases hhttp :
      (s.data.take 7 = "http://".data || s.data.take 8 = "https://".data) = true
  · simp only [Bool.or_eq_true, decide_eq_true_eq] at hhttp
    rcases hhttp with h | h
    · have hmem : 'h' ∈ s.data.take 7 := by rw [h]; decide
      exact ⟨'h', List.take_subset _ _ hmem, by decide⟩
    · have hmem : 'h' ∈ s.data.take 8 := by rw [h]; decide
      exact ⟨'h', List.take_subset _ _ hmem, by decide⟩
  · rw [if_neg (by simpa using hhttp)] at hd
    by_cases hloc : (startsSlash s.data || s.data.contains ':') = true
    · simp only [Bool.or_eq_true] at hloc
      rcases hloc with h | h
      · cases hsd : s.data with
        | nil =>
          rw [hsd] at h
          exact absurd h (by decide)
        | cons c cs =>
          rw [hsd] at h
          have hc : c = '/' := by
            unfold startsSlash at h
            simpa using h
          exact ⟨'/', by rw [← hc]; exact List.mem_cons_self c cs, by decide⟩
      · refine ⟨':', ?_, by decide⟩
        simpa using h
    · rw [if_neg (by simpa using hloc)] at hd
      cases hd

theorem domainKey_nonspace (s : String) (d : String) (h : domainKey s = some d) :
    (!(pyStripL s.data).isEmpty) = true := by
  unfold domainKey at h
  cases hd : extractDomain s with
  | none => rw [hd] at h; cases h
  | some d' =>
    obtain ⟨c, hc, hcs⟩ := extractDomain_some_nonspace s d' hd
    have := pyStripL_ne_nil_of_mem s.data c hc hcs
    simpa [List.isEmpty_iff] using this

theorem fileKey_nonspace (s : String) (d : String) (h : fileKey s = some d) :
    (!(pyStripL s.data).isEmpty) = true := by
  unfold fileKey at h
  cases hd : extractDomain s with
  | none => rw [hd] at h; cases h
  | some d' =>
    obtain ⟨c, hc, hcs⟩ := extractDomain_some_nonspace s d' hd
    have := pyStripL_ne_nil_of_mem s.data c hc hcs
    simpa [List.isEmpty_iff] using this

theorem countNonEmpty_of_two_keys (ss : List String) (f : String → Option String)
    (hne : ∀ s d, f s = some d → (!(pyStripL s.data).isEmpty) = true)
    (hcard : 2 ≤ (ss.filterMap f).toFinset.card) : 2 ≤ countNonEmpty ss := by
  obtain ⟨a, ha, b, hb, hab⟩ :=
    Finset.one_lt_card.1 (Nat.lt_of_lt_of_le Nat.one_lt_two hcard)
  obtain ⟨sa, hsa, hfa⟩ := List.mem_filterMap.1 (List.mem_toFinset.1 ha)
  obtain ⟨sb, hsb, hfb⟩ := List.mem_filterMap.1 (List.mem_toFinset.1 hb)
  have hsne : sa ≠ sb := by
    intro h
    apply hab
    rw [h] at hfa
    rw [hfa] at hfb
    exact Option.some.inj hfb
  have hfa' := hne sa a hfa
  have hfb' := hne sb b hfb
  have hma : sa ∈ ss.filter (fun s => !(pyStripL s.data).isEmpty) :=
    List.mem_filter.2 ⟨hsa, hfa'⟩
  have hmb : sb ∈ ss.filter (fun s => !(pyStripL s.data).isEmpty) :=
    List.mem_filter.2 ⟨hsb, hfb'⟩
  have hcard2 : 1 < (ss.filter (fun s => !(pyStripL s.data).isEmpty)).toFinset.card :=
    Finset.one_lt_card.2
      ⟨sa, List.mem_toFinset.2 hma, sb, List.mem_toFinset.2 hmb, hsne⟩
  have hle := List.toFinset_card_le (ss.filter (fun s => !(pyStripL s.data).isEmpty))
  unfold countNonEmpty
  omega

theorem rule2_two_nonempty (ss : List String)
    (h2 : hasIndependentSources ss = true) (hlen : 2 ≤ ss.length) :
    2 ≤ countNonEmpty ss := by
  unfold hasIndependentSources at h2
  rw [if_pos hlen] at h2
  have hco := collectOrigins_eq ss (∅, ∅)
  simp only [Bool.or_eq_true, decide_eq_true_eq] at h2
  rcases h2 with h | h
  · refine countNonEmpty_of_two_keys ss domainKey domainKey_nonspace ?_
    have : (collectOrigins ss).1 = (ss.filterMap domainKey).toFinset := by
      unfold collectOrigins
      rw [hco]
      simp
    rw [this] at h
    exact h
  · refine countNonEmpty_of_two_keys ss fileKey fileKey_nonspace ?_
    have : (collectOrigins ss).2 = (ss.filterMap fileKey).toFinset := by
      unfold collectOrigins
      rw [hco]
      simp
    rw [this] at h
    exact h

/-- C3 counterexample: a single one-colon source fails the citation-count
rule and `verify_claim` returns the freshly-constructed claim with its
*default* confidence `0.0`, not the claimed `0.2`. -/
theorem verifier_confidence_counterexample :
    (verify_claim none "The system is fast" ["src/x.py:1"]).confidence = 0 ∧
    (verify_claim none "The system is fast" ["src/x.py:1"]).verified = false ∧
    (0 : ℚ) ≠ 1 / 5 := by
  have h : hasSufficientCitations ["src/x.py:1"] = false := by decide
  refine ⟨?_, ?_, by norm_num⟩ <;> simp [verify_claim, h]

/-- C3 (amended). A claim failing the citation-count rule or the
independence rule is returned with `verified = false` and confidence `0.0`
(the dataclass default); only a claim passing both rules but failing the
semantic-support rule gets confidence `0.2`, and a claim passing all three
gets `verified = true` with confidence `0.8`. -/
theorem verifier_failure_confidence
    (client : Option (String → List String → Bool)) (claimText : String)
    (sources : List String) :
    ((hasSufficientCitations sources = false ∨ hasIndependentSources sources = false) →
      verify_claim client claimText sources =
        { text := claimText, sources := sources, confidence := 0, verified := false }) ∧
    (hasSufficientCitations sources = true → hasIndependentSources sources = true →
      (verify_claim client claimText sources).verified = false →
      (verify_claim client claimText sources).confidence = 1 / 5) ∧
    (hasSufficientCitations sources = true → hasIndependentSources sources = true →
      (verify_claim client claimText sources).verified = true →
      (verify_claim client claimText sources).confidence = 4 / 5) := by
  refine ⟨?_, ?_, ?_⟩
  · intro h
    rcases h with h | h
    · simp [verify_claim, h]
    · by_cases h1 : hasSufficientCitations sources = false
      · simp [verify_claim, h1]
      · simp only [Bool.not_eq_false] at h1
        simp [verify_claim, h1, h]
  · intro h1 h2
    simp only [verify_claim, h1, h2]
    cases client with
    | none =>
      by_cases hb : basicValidation claimText sources = true <;> simp [hb]
    | some oracle =>
      by_cases hb : oracle claimText sources = true <;> simp [hb]
  · intro h1 h2
    simp only [verify_claim, h1, h2]
    cases client with
    | none =>
      by_cases hb : basicValidation claimText sources = true <;> simp [hb]
    | some oracle =>
      by_cases hb : oracle claimText sources = true <;> simp [hb]

/-- Concrete witness for `verifier_failure_confidence` (rule-1 failure). -/
theorem verifier_failure_confidence_witness :
    verify_claim none "t" ["src/a.py:1"] =
      { text := "t", sources := ["src/a.py:1"], confidence := 0, verified := false } :=
  (verifier_failure_confidence none "t" ["src/a.py:1"]).1 (Or.inl (by decide))

/-- C4. In fallback mode (no `RemoteReasoner` client), for sources that pass
the citation-count and independence rules, `verify_claim` admits the claim
iff at least two sources are non-empty after stripping, and admission sets
confidence `0.8`.  (The code tests `len(sources) >= 2 and any(s.strip())`,
but any source list passing the independence rule with `len >= 2` already
has two distinct contributing — hence non-empty — sources, so the two
conditions coincide on the rule-passing domain.) -/
theorem verifier_fallback_two_nonempty (claimText : String) (sources : List String)
    (h1 : hasSufficientCitations sources = true)
    (h2 : hasIndependentSources sources = true) :
    ((verify_claim none claimText sources).verified = true ↔
      2 ≤ countNonEmpty sources) ∧
    ((verify_claim none claimText sources).verified = true →
      (verify_claim none claimText sources).confidence = 4 / 5) := by
  have hv : (verify_claim none claimText sources).verified =
      basicValidation claimText sources := by
    simp [verify_claim, h1, h2]
  constructor
  · rw [hv]
    unfold basicValidation
    constructor
    · intro hb
      simp only [Bool.and_eq_true, decide_eq_true_eq] at hb
      exact rule2_two_nonempty sources h2 hb.1
    · intro hc
      have hlen : 2 ≤ sources.length := by
        have := List.length_filter_le (fun s => !(pyStripL s.data).isEmpty) sources
        unfold countNonEmpty at hc
        omega
      have hpos : 0 < (sources.filter (fun s => !(pyStripL s.data).isEmpty)).length := by
        unfold countNonEmpty at hc
        omega
      obtain ⟨x, hx⟩ := List.exists_mem_of_length_pos hpos
      have hx' := List.mem_filter.1 hx
      have hany : sources.any (fun s => !(pyStripL s.data).isEmpty) = true :=
        List.any_eq_true.2 ⟨x, hx'.1, hx'.2⟩
      rw [Bool.and_eq_true]
      exact ⟨by simpa using hlen, hany⟩
  · intro hver
    have hb : basicValidation claimText sources = true := by rw [← hv]; exact hver
    simp [verify_claim, h1, h2, hb]

/-- Concrete witness for `verifier_fallback_two_nonempty`. -/
theorem verifier_fallback_two_nonempty_witness :
    hasSufficientCitations ["a.py:1", "b.py:2"] = true ∧
    hasIndependentSources ["a.py:1", "b.py:2"] = true ∧
    ((verify_claim none "t" ["a.py:1", "b.py:2"]).verified = true ↔
      2 ≤ countNonEmpty ["a.py:1", "b.py:2"]) :=
  ⟨by decide, by decide,
    (verifier_fallback_two_nonempty "t" ["a.py:1", "b.py:2"]
      (by decide) (by decide)).1⟩

/-- `FileSnippet` dataclass from `src/file_read.py` (`end` is a Lean keyword,
modelled as `stop`). -/
structure FileSnippet where
  path : String
  start : Nat
  stop : Int
  text : String
deriving DecidableEq, Repr

/-- Python list slice `l[a:b]` for a non-negative start index and a possibly
negative stop index (both clamped). -/
def pySlice {α : Type} (l : List α) (a : Nat) (b : Int) : List α :=
  let n : Int := l.length
  let bb : Nat := if b < 0 then (max 0 (n + b)).toNat else min b.toNat l.length
  (l.take bb).drop a

/-- `(start or 1)` for the optional `start` parameter. -/
def startOr1 (start? : Option Int) : Int :=
  match start? with
  | none => 1
  | some s => if s = 0 then 1 else s

/-- `read_snippet(path, start, end, context=3)` from `src/file_read.py`,
with the file contents passed in (`none` models an unreadable file; lines
carry their trailing newlines, as Python `readlines` returns them). -/
def read_snippet (path : String) (fileLines : Option (List String))
    (start? end? : Option Int) : FileSnippet :=
  match fileLines with
  | none => { path := path, start := 0, stop := 0, text := "" }
  | some allLines =>
    let total : Int := allLines.length
    let startIdx : Nat :=
      match start? with
      | none => 0
      | some s => if s ≤ 0 then 0 else (max 0 (s - 3 - 1)).toNat
    let endIdx : Int :=
      match end? with
      | none => min total (startOr1 start? + 3)
      | some e => if e ≤ 0 then min total (startOr1 start? + 3) else min total (e + 3)
    let snippetLines := pySlice allLines startIdx endIdx
    { path := path, start := startIdx + 1, stop := endIdx,
      text := String.join snippetLines }

/-- `ToolResult` from `src/tool_registry.py`, specialised to the `read_file`
branch (whose `result` payload is the `asdict` of a `FileSnippet`). -/
structure ToolResult where
  name : String
  result : Option FileSnippet
  error : Option String
deriving DecidableEq, Repr

/-- POSIX `os.path.join(root, path)`: an absolute `path` discards `root`;
otherwise the parts are joined with a single separator. -/
def osPathJoin (root p : String) : String :=
  if startsSlash p.data then p
  else if root = "" || root.data.getLast? = some '/' then root ++ p
  else root ++ "/" ++ p

/-- Split on `'/'`, keeping empty components. -/
def splitSlash : List Char → List (List Char)
  | [] => [[]]
  | c :: cs =>
    if c = '/' then [] :: splitSlash cs
    else
      match splitSlash cs with
      | [] => [[c]]
      | w :: ws => (c :: w) :: ws

/-- Process one path component during resolution (`.` and empty are dropped,
`..` pops, a root-level `..` on an absolute path stays at the root). -/
def resolveSeg (isAbs : Bool) (stack : List String) (seg : String) : List String :=
  if seg = "" || seg = "." then stack
  else if seg = ".." then
    match stack with
    | [] => if isAbs then [] else [".."]
    | s :: rest => if s = ".." then ".." :: stack else rest
  else seg :: stack

/-- Join components with `/`. -/
def joinSlash : List String → String
  | [] => ""
  | [w] => w
  | w :: ws => w ++ "/" ++ joinSlash ws

/-- Filesystem-level normalisation of `.` / `..` segments: the path the OS
actually consults when `os.path.exists(full_path)` / `open` run. -/
def resolvePath (p : String) : String :=
  let isAbs := startsSlash p.data
  let comps := (splitSlash p.data).map (fun cs => (⟨cs⟩ : String))
  let stack := comps.foldl (resolveSeg isAbs) []
  let body := joinSlash stack.reverse
  if isAbs then "/" ++ body else body

/-- Filesystem snapshot: resolved absolute path ↦ file lines. -/
structure FileSystem where
  files : List (String × List String)
deriving DecidableEq, Repr

/-- `os.path.exists` / `open`, modelled against the snapshot. -/
def fsLookup (fs : FileSystem) (p : String) : Option (List String) :=
  (fs.files.find? (fun e => e.1 == p)).map (·.2)

/-- The `read_file` branch of `ToolRegistry.execute_tool`: join the path to
the registry root (no containment check), error if the file does not exist,
otherwise return the snippet. -/
def execute_read_file (fs : FileSystem) (root : String) (path : String)
    (start? end? : Option Int) : ToolResult :=
  let fullPath := osPathJoin root path
  match fsLookup fs (resolvePath fullPath) with
  | none =>
    { name := "read_file", result := none, error := some ("File not found: " ++ path) }
  | some ls =>
    { name := "read_file", result := some (read_snippet fullPath (some ls) start? end?),
      error := none }

/-- The filesystem used by the containment counterexample: a secret outside
the root and one file inside it. -/
def cexFS : FileSystem :=
  { files := [("/etc/passwd", ["root:x:0:0\n"]), ("/repo/a.txt", ["hello\n"])] }

/-- C2 counterexample: with root `/repo`, both the absolute parameter
`/etc/passwd` and the traversal `../etc/passwd` resolve outside the root,
yet `read_file` returns the file's content with `error = None` instead of
rejecting the escape. -/
theorem read_file_escape_counterexample :
    execute_read_file cexFS "/repo" "/etc/passwd" none none =
      { name := "read_file",
        result := some { path := "/etc/passwd", start := 1, stop := 1,
                         text := "root:x:0:0\n" },
        error := none } ∧
    execute_read_file cexFS "/repo" "../etc/passwd" none none =
      { name := "read_file",
        result := some { path := "/repo/../etc/passwd", start := 1, stop := 1,
                         text := "root:x:0:0\n" },
        error := none } := by decide

/-- C2 (amended). `read_file` joins its path parameter onto the registry
root with `os.path.join` and performs no containment check: an absolute
path parameter replaces the root entirely (the result is independent of the
configured root), `..` segments may resolve outside it, and the only
failure is non-existence of the resolved file (`File not found`).  The
`clean_csv` / `clean_markdown` branches build their input paths with the
same unchecked join. -/
theorem read_file_joins_without_containment (fs : FileSystem)
    (root1 root2 path : String) (s e : Option Int) :
    (startsSlash path.data = true →
      execute_read_file fs root1 path s e = execute_read_file fs root2 path s e) ∧
    ((execute_read_file fs root1 path s e).error = none ↔
      (fsLookup fs (resolvePath (osPathJoin root1 path))).isSome = true) := by
  constructor
  · intro habs
    simp [execute_read_file, osPathJoin, habs]
  · unfold execute_read_file
    cases h : fsLookup fs (resolvePath (osPathJoin root1 path)) <;> simp [h]

/-- Concrete witness for `read_file_joins_without_containment`: the root is
irrelevant for an absolute path parameter. -/
theorem read_file_joins_without_containment_witness :
    startsSlash ("/etc/passwd" : String).data = true ∧
    execute_read_file cexFS "/repo" "/etc/passwd" none none =
      execute_read_file cexFS "/other" "/etc/passwd" none none :=
  ⟨by decide,
    (read_file_joins_without_containment cexFS "/repo" "/other" "/etc/passwd"
      none none).1 (by decide)⟩

/-- `SearchHit` dataclass from `src/code_search.py`. -/
structure SearchHit where
  path : String
  line : Nat
  snippet : String
deriving DecidableEq, Repr

/-- Environment for a single `CodeSearch.search` call: the files `os.walk`
yields under the root, per-file readability/size/binary information, and the
per-file symbol tables that `SymbolIndex._index_file`'s AST pass would
produce (keyed by lowercased name, in walk order).  AST parsing itself is
external to the claims and abstracted here. -/
structure SearchEnv where
  walkFiles : List String
  fileLines : String → Option (List String)
  fileSize : String → Option Nat
  firstKbNull : String → Bool
  fileDefs : String → String → List Nat
  fileUses : String → String → List Nat

/-- ASCII model of the regex class `\w`. -/
def isWordChar (c : Char) : Bool :=
  c.isAlphanum || c = '_'

/-- Maximal `\w+` runs (the regex `re.findall(r"\w+", ·)`). -/
def wordRuns : List Char → List Char → List (List Char)
  | [], acc => if acc.isEmpty then [] else [acc.reverse]
  | c :: cs, acc =>
    if isWordChar c then wordRuns cs (c :: acc)
    else if acc.isEmpty then wordRuns cs [] else acc.reverse :: wordRuns cs []

/-- `s.lower()` (ASCII). -/
def toLowerStr (s : String) : String :=
  ⟨s.data.map Char.toLower⟩

/-- `[t for t in re.findall(r"\w+", query.lower()) if len(t) > 2]`. -/
def tokenizeQuery (query : String) : List String :=
  ((wordRuns (toLowerStr query).data []).map (fun cs => (⟨cs⟩ : String))).filter
    (fun t => 2 < t.length)

/-- `s.endswith(suf)` via reversed character lists. -/
def endsWithStr (s suf : String) : Bool :=
  s.data.reverse.take suf.data.length == suf.data.reverse

/-- `SymbolIndex._is_python_file` (`max_file_size` is the registry default
256 000). -/
def isPythonFile (env : SearchEnv) (p : String) : Bool :=
  endsWithStr p ".py" &&
    (match env.fileSize p with
     | some n => decide (n ≤ 256000)
     | none => false)

/-- `SymbolIndex.index_paths` on a fresh index: first occurrence of each
eligible `.py` file, in iteration order (`seen` is the `_indexed_files`
set). -/
def indexEligible (env : SearchEnv) : List String → List String → List String
  | [], _ => []
  | p :: rest, seen =>
    if seen.contains p then indexEligible env rest seen
    else if isPythonFile env p then p :: indexEligible env rest (p :: seen)
    else indexEligible env rest seen

/-- `find_definitions(t)` for a lowercase term `t` over the freshly indexed
files: per-file definition lines in insertion order. -/
def defEntries (env : SearchEnv) (files : List String) (t : String) :
    List (String × Nat) :=
  files.flatMap (fun f => (env.fileDefs f t).map (fun ln => (f, ln)))

/-- `find_usages(t)`, analogous to `defEntries`. -/
def useEntries (env : SearchEnv) (files : List String) (t : String) :
    List (String × Nat) :=
  files.flatMap (fun f => (env.fileUses f t).map (fun ln => (f, ln)))

/-- `CodeSearch._read_line`: the stripped `line_no`-th line, or `""`. -/
def readLineModel (env : SearchEnv) (p : String) (n : Nat) : String :=
  match env.fileLines p with
  | none => ""
  | some ls =>
    match ls.get? (n - 1) with
    | some l => pyStripString l
    | none => ""

/-- `CodeSearch._has_hit`. -/
def hasHit (hits : List SearchHit) (p : String) (n : Nat) : Bool :=
  hits.any (fun h => h.path == p && h.line == n)

/-- The inner loop of `_symbol_hits` over one entry list (defs or uses of a
term): dedupe, append, and stop with `true` once `max_results` is reached. -/
def addSymHits (env : SearchEnv) (maxResults : Nat) :
    List (String × Nat) → List SearchHit → List SearchHit × Bool
  | [], acc => (acc, false)
  | (p, ln) :: rest, acc =>
    if hasHit acc p ln then addSymHits env maxResults rest acc
    else
      let acc' := acc ++ [{ path := p, line := ln, snippet := readLineModel env p ln }]
      if maxResults ≤ acc'.length then (acc', true)
      else addSymHits env maxResults rest acc'

/-- `_symbol_hits`' outer loop over terms: definitions before usages per
term, early return at the cap. -/
def symbolHitsLoop (env : SearchEnv) (maxResults : Nat) (files : List String) :
    List String → List SearchHit → List SearchHit
  | [], acc => acc
  | t :: ts, acc =>
    let r1 := addSymHits env maxResults (defEntries env files t) acc
    if r1.2 then r1.1
    else
      let r2 := addSymHits env maxResults (useEntries env files t) r1.1
      if r2.2 then r2.1
      else symbolHitsLoop env maxResults files ts r2.1

/-- `CodeSearch._symbol_hits(terms, paths, max_results)` (fresh index). -/
def symbolHits (env : SearchEnv) (terms : List String) (paths : List String)
    (maxResults : Nat) : List SearchHit :=
  symbolHitsLoop env maxResults (indexEligible env paths []) terms []

/-- `Path(p).parts`, minus the root component (which never matches the
`.git` test it feeds). -/
def pathParts (p : String) : List String :=
  ((splitSlash p.data).map (fun cs => (⟨cs⟩ : String))).filter (fun s => s ≠ "")

/-- `Path(p).suffix` (CPython: last `.` of the final component, strictly
inside it). -/
def pySuffix (p : String) : String :=
  let name :=
    match (splitSlash p.data).reverse with
    | [] => ([] : List Char)
    | last :: _ => last
  match rfindDotIdx name 0 with
  | some i => if 0 < i ∧ i + 1 < name.length then ⟨name.drop i⟩ else ""
  | none => ""

/-- `CodeSearch._is_text_file`: size cap, `.git` components, binary
extensions, readability, and the zero-byte sniff of the first 1 KiB. -/
def isTextFile (env : SearchEnv) (p : String) : Bool :=
  match env.fileSize p with
  | none => false
  | some size =>
    if 256000 < size then false
    else if (pathParts p).any (fun part => part.data.take 4 == ".git".data) then false
    else if [".pyc", ".pyo", ".so", ".dll", ".exe"].contains (toLowerStr (pySuffix p)) then
      false
    else
      match env.fileLines p with
      | none => false
      | some _ => !(env.firstKbNull p)

/-- `p == c && sub-match` prefix test for substring search. -/
def subAt : List Char → List Char → Bool
  | [], _ => true
  | _ :: _, [] => false
  | p :: ps, c :: cs => p == c && subAt ps cs

/-- Python `pat in hay` (substring containment). -/
def hasSub : List Char → List Char → Bool
  | hay, pat =>
    match hay with
    | [] => pat.isEmpty
    | _ :: rest => subAt pat hay || hasSub rest pat

/-- `sub in s` on strings. -/
def containsSubstr (s sub : String) : Bool :=
  hasSub s.data sub.data

/-- `enumerate(fh, start=i)`. -/
def enumFrom1 : Nat → List String → List (Nat × String)
  | _, [] => []
  | i, l :: ls => (i, l) :: enumFrom1 (i + 1) ls

/-- The per-file line scan of `CodeSearch.search`: emit one deduplicated hit
per line whose lowercase form contains all tokens; `break` (stop) once the
cap is reached. -/
def scanFileLines (terms : List String) (maxResults : Nat) (p : String) :
    List (Nat × String) → List SearchHit → List SearchHit
  | [], acc => acc
  | (idx, line) :: rest, acc =>
    if terms.all (fun t => containsSubstr (toLowerStr line) t) then
      let acc' :=
        if hasHit acc p idx then acc
        else acc ++ [{ path := p, line := idx, snippet := pyStripString line }]
      if maxResults ≤ acc'.length then acc'
      else scanFileLines terms maxResults p rest acc'
    else scanFileLines terms maxResults p rest acc

/-- The file loop of `CodeSearch.search`: break at the cap, skip non-text
and unreadable files, scan the rest. -/
def scanPathsLoop (env : SearchEnv) (terms : List String) (maxResults : Nat) :
    List String → List SearchHit → List SearchHit
  | [], acc => acc
  | p :: rest, acc =>
    if maxResults ≤ acc.length then acc
    else if !(isTextFile env p) then scanPathsLoop env terms maxResults rest acc
    else
      match env.fileLines p with
      | none => scanPathsLoop env terms maxResults rest acc
      | some ls =>
        scanPathsLoop env terms maxResults rest
          (scanFileLines terms maxResults p (enumFrom1 1 ls) acc)

/-- `CodeSearch.search(query, paths, max_results)`.  With `paths=None` the
source builds `target_paths = self._walk_all()`, a one-shot generator that
`_symbol_hits` (via `index_paths`) fully consumes, so the subsequent linear
scan iterates an exhausted iterator: the scan path list is empty.  With an
explicit list, both phases iterate the same list. -/
def codeSearch (env : SearchEnv) (query : String) (pathsOpt : Option (List String))
    (maxResults : Nat) : List SearchHit :=
  let terms := tokenizeQuery query
  if terms.isEmpty then []
  else
    let indexPaths :=
      match pathsOpt with
      | none => env.walkFiles
      | some ps => ps
    let symHits := symbolHits env terms indexPaths maxResults
    let scanPaths :=
      match pathsOpt with
      | none => ([] : List String)
      | some ps => ps
    scanPathsLoop env terms maxResults scanPaths symHits

/-- The `search_code` branch of `ToolRegistry.execute_tool`: the `paths`
parameter defaults to `[]` (not `None`) and `max_results` to 20. -/
def execute_search_code (env : SearchEnv) (query : String)
    (pathsParam : Option (List String)) (maxResultsParam : Option Nat) :
    List SearchHit :=
  codeSearch env query (some (pathsParam.getD [])) (maxResultsParam.getD 20)

/-- Environment for the `search_code` counterexample: one matching text file
under the root, no Python files. -/
def cexSearchEnv : SearchEnv :=
  { walkFiles := ["/r/a.txt"],
    fileLines := fun p => if p = "/r/a.txt" then some ["alpha beta here"] else none,
    fileSize := fun p => if p = "/r/a.txt" then some 20 else none,
    firstKbNull := fun _ => false,
    fileDefs := fun _ _ => [],
    fileUses := fun _ _ => [] }

/-- C5 counterexample: the file `/r/a.txt` matches the query and is found
when `paths` is passed explicitly, but `search_code` without `paths`
(registry default `[]`) returns nothing, and even `CodeSearch.search` with
`paths=None` returns nothing because the walk generator is exhausted by
symbol indexing before the linear scan runs. -/
theorem search_code_no_paths_counterexample :
    codeSearch cexSearchEnv "alpha beta" (some ["/r/a.txt"]) 20 =
      [{ path := "/r/a.txt", line := 1, snippet := "alpha beta here" }] ∧
    execute_search_code cexSearchEnv "alpha beta" none none = [] ∧
    codeSearch cexSearchEnv "alpha beta" none 20 = [] := by decide

theorem symbolHitsLoop_no_files (env : SearchEnv) (k : Nat) :
    ∀ ts acc, symbolHitsLoop env k [] ts acc = acc := by
  intro ts
  induction ts with
  | nil => intro acc; rfl
  | cons t ts ih =>
    intro acc
    show symbolHitsLoop env k [] (t :: ts) acc = acc
    have hdef : defEntries env [] t = [] := rfl
    have huse : useEntries env [] t = [] := rfl
    simp only [symbolHitsLoop, hdef, huse, addSymHits]
    exact ih acc

theorem addSymHits_len (env : SearchEnv) (k : Nat) :
    ∀ entries (acc : List SearchHit), acc.length < k →
      (addSymHits env k entries acc).1.length ≤ k ∧
      ((addSymHits env k entries acc).2 = false →
        (addSymHits env k entries acc).1.length < k) := by
  intro entries
  induction entries with
  | nil => intro acc h; exact ⟨Nat.le_of_lt h, fun _ => h⟩
  | cons e rest ih =>
    intro acc h
    obtain ⟨p, ln⟩ := e
    by_cases hdup : hasHit acc p ln = true
    · simpa [addSymHits, hdup] using ih acc h
    · have hdup' : hasHit acc p ln = false := by simpa using hdup
      have hlen : (acc ++
          [({ path := p, line := ln, snippet := readLineModel env p ln } : SearchHit)]).length =
          acc.length + 1 := by
        simp
      simp only [addSymHits, hdup', Bool.false_eq_true, if_false, hlen]
      by_cases hbrk : k ≤ acc.length + 1
      · rw [if_pos hbrk]
        refine ⟨by simp; omega, ?_⟩
        intro hfalse
        simp at hfalse
      · rw [if_neg hbrk]
        refine ih _ ?_
        rw [hlen]
        omega

theorem symbolHitsLoop_len (env : SearchEnv) (k : Nat) (files : List String) :
    ∀ ts acc, acc.length < k → (symbolHitsLoop env k files ts acc).length ≤ k := by
  intro ts
  induction ts with
  | nil => intro acc h; exact Nat.le_of_lt h
  | cons t ts ih =>
    intro acc h
    have h1 := addSymHits_len env k (defEntries env files t) acc h
    by_cases hf1 : (addSymHits env k (defEntries env files t) acc).2 = true
    · simp only [symbolHitsLoop, hf1, if_true]
      exact h1.1
    · have hf1' : (addSymHits env k (defEntries env files t) acc).2 = false := by
        simpa using hf1
      have hlt1 := h1.2 hf1'
      have h2 := addSymHits_len env k (useEntries env files t)
        (addSymHits env k (defEntries env files t) acc).1 hlt1
      by_cases hf2 : (addSymHits env k (useEntries env files t)
          (addSymHits env k (defEntries env files t) acc).1).2 = true
      · simp only [symbolHitsLoop, hf1', hf2, if_true, Bool.false_eq_true, if_false]
        exact h2.1
      · have hf2' : (addSymHits env k (useEntries env files t)
            (addSymHits env k (defEntries env files t) acc).1).2 = false := by
          simpa using hf2
        have hlt2 := h2.2 hf2'
        simp only [symbolHitsLoop, hf1', hf2', Bool.false_eq_true, if_false]
        exact ih _ hlt2

theorem scanFileLines_len (terms : List String) (k : Nat) (p : String) :
    ∀ entries (acc : List SearchHit), acc.length < k →
      (scanFileLines terms k p entries acc).length ≤ k := by
  intro entries
  induction entries with
  | nil => intro acc h; exact Nat.le_of_lt h
  | cons e rest ih =>
    intro acc h
    obtain ⟨idx, line⟩ := e
    by_cases hm : terms.all (fun t => containsSubstr (toLowerStr line) t) = true
    · by_cases hdup : hasHit acc p idx = true
      · by_cases hbrk : k ≤ acc.length
        · omega
        · simpa [scanFileLines, hm, hdup, hbrk] using ih acc h
      · have hdup' : hasHit acc p idx = false := by simpa using hdup
        have hlen : (acc ++
            [({ path := p, line := idx, snippet := pyStripString line } : SearchHit)]).length =
            acc.length + 1 := by
          simp
        simp only [scanFileLines, hm, if_true, hdup', Bool.false_eq_true, if_false, hlen]
        by_cases hbrk : k ≤ acc.length + 1
        · rw [if_pos hbrk, hlen]
          omega
        · rw [if_neg hbrk]
          refine ih _ ?_
          rw [hlen]
          omega
    · have hm' : terms.all (fun t => containsSubstr (toLowerStr line) t) = false := by
        simpa using hm
      simpa [scanFileLines, hm'] using ih acc h

theorem scanPathsLoop_len (env : SearchEnv) (terms : List String) (k : Nat) :
    ∀ paths (acc : List SearchHit), acc.length ≤ k →
      (scanPathsLoop env terms k paths acc).length ≤ k := by
  intro paths
  induction paths with
  | nil => intro acc h; exact h
  | cons p rest ih =>
    intro acc h
    by_cases hbrk : k ≤ acc.length
    · simpa [scanPathsLoop, hbrk] using h
    · have hlt : acc.length < k := by omega
      by_cases htext : isTextFile env p = true
      · cases hls : env.fileLines p with
        | none => simpa [scanPathsLoop, hbrk, htext, hls] using ih acc h
        | some ls =>
          have hscan := scanFileLines_len terms k p (enumFrom1 1 ls) acc hlt
          simpa [scanPathsLoop, hbrk, htext, hls] using ih _ hscan
      · have htext' : isTextFile env p = false := by simpa using htext
        simpa [scanPathsLoop, hbrk, htext'] using ih acc h

/-- What every hit appended by the linear scan satisfies: it names a line of
a readable file whose lowercase form contains every query token, and its
snippet is that line stripped. -/
def scanHitProp (env : SearchEnv) (terms : List String) (h : SearchHit) : Prop :=
  ∃ ls line, env.fileLines h.path = some ls ∧ ls.get? (h.line - 1) = some line ∧
    (∀ t ∈ terms, containsSubstr (toLowerStr line) t = true) ∧
    h.snippet = pyStripString line

theorem scanFileLines_extend (terms : List String) (k : Nat) (p : String) :
    ∀ entries (acc : List SearchHit),
      ∃ new, scanFileLines terms k p entries acc = acc ++ new ∧
        ∀ h ∈ new, h.path = p ∧ ∃ idx line, (idx, line) ∈ entries ∧ h.line = idx ∧
          (∀ t ∈ terms, containsSubstr (toLowerStr line) t = true) ∧
          h.snippet = pyStripString line := by
  intro entries
  induction entries with
  | nil =>
    intro acc
    exact ⟨[], by simp [scanFileLines], by simp⟩
  | cons e rest ih =>
    intro acc
    obtain ⟨idx, line⟩ := e
    by_cases hm : terms.all (fun t => containsSubstr (toLowerStr line) t) = true
    · have hmatch : ∀ t ∈ terms, containsSubstr (toLowerStr line) t = true :=
        fun t ht => List.all_eq_true.1 hm t ht
      by_cases hdup : hasHit acc p idx = true
      · by_cases hbrk : k ≤ acc.length
        · refine ⟨[], ?_, by simp⟩
          simp [scanFileLines, hm, hdup, hbrk]
        · obtain ⟨new, hnew, hprop⟩ := ih acc
          refine ⟨new, ?_, ?_⟩
          · simpa [scanFileLines, hm, hdup, hbrk] using hnew
          · intro h hh
            obtain ⟨hp, i2, l2, hmem, hrest⟩ := hprop h hh
            exact ⟨hp, i2, l2, List.mem_cons_of_mem _ hmem, hrest⟩
      · have hdup' : hasHit acc p idx = false := by simpa using hdup
        have hlen : (acc ++
            [({ path := p, line := idx, snippet := pyStripString line } : SearchHit)]).length =
            acc.length + 1 := by
          simp
        by_cases hbrk : k ≤ acc.length + 1
        · refine ⟨[({ path := p, line := idx, snippet := pyStripString line } : SearchHit)],
            ?_, ?_⟩
          · simp only [scanFileLines, hm, if_true, hdup', Bool.false_eq_true, if_false, hlen]
            rw [if_pos hbrk]
          · intro h hh
            simp only [List.mem_singleton] at hh
            subst hh
            exact ⟨rfl, idx, line, by simp, rfl, hmatch, rfl⟩
        · obtain ⟨new, hnew, hprop⟩ :=
            ih (acc ++ [({ path := p, line := idx, snippet := pyStripString line } : SearchHit)])
          refine ⟨({ path := p, line := idx, snippet := pyStripString line } : SearchHit) :: new,
            ?_, ?_⟩
          · simp only [scanFileLines, hm, if_true, hdup', Bool.false_eq_true, if_false, hlen]
            rw [if_neg hbrk, hnew, List.append_assoc]
            rfl
          · intro h hh
            rcases List.mem_cons.1 hh with hh | hh
            · subst hh
              exact ⟨rfl, idx, line, by simp, rfl, hmatch, rfl⟩
            · obtain ⟨hp, i2, l2, hmem, hrest⟩ := hprop h hh
              exact ⟨hp, i2, l2, List.mem_cons_of_mem _ hmem, hrest⟩
    · have hm' : terms.all (fun t => containsSubstr (toLowerStr line) t) = false := by
        simpa using hm
      obtain ⟨new, hnew, hprop⟩ := ih acc
      refine ⟨new, by simpa [scanFileLines, hm'] using hnew, ?_⟩
      intro h hh
      obtain ⟨hp, i2, l2, hmem, hrest⟩ := hprop h hh
      exact ⟨hp, i2, l2, List.mem_cons_of_mem _ hmem, hrest⟩

theorem mem_enumFrom1 :
    ∀ (ls : List String) (i idx : Nat) (line : String),
      (idx, line) ∈ enumFrom1 i ls → i ≤ idx ∧ ls.get? (idx - i) = some line := by
  intro ls
  induction ls with
  | nil => intro i idx line h; simp [enumFrom1] at h
  | cons l ls ih =>
    intro i idx line h
    rcases List.mem_cons.1 h with h | h
    · obtain ⟨h1, h2⟩ := Prod.mk.inj h.symm
      subst h1
      subst h2
      simp
    · obtain ⟨hle, hget⟩ := ih (i + 1) idx line h
      refine ⟨by omega, ?_⟩
      have hsub : idx - i = (idx - (i + 1)) + 1 := by omega
      rw [hsub]
      simpa using hget

theorem scanPathsLoop_extend (env : SearchEnv) (terms : List String) (k : Nat) :
    ∀ paths (acc : List SearchHit),
      ∃ new, scanPathsLoop env terms k paths acc = acc ++ new ∧
        ∀ h ∈ new, scanHitProp env terms h := by
  intro paths
  induction paths with
  | nil => intro acc; exact ⟨[], by simp [scanPathsLoop], by simp⟩
  | cons p rest ih =>
    intro acc
    by_cases hbrk : k ≤ acc.length
    · exact ⟨[], by simp [scanPathsLoop, hbrk], by simp⟩
    · by_cases htext : isTextFile env p = true
      · cases hls : env.fileLines p with
        | none =>
          obtain ⟨new, hnew, hprop⟩ := ih acc
          exact ⟨new, by simpa [scanPathsLoop, hbrk, htext, hls] using hnew, hprop⟩
        | some ls =>
          obtain ⟨new1, hnew1, hprop1⟩ := scanFileLines_extend terms k p (enumFrom1 1 ls) acc
          obtain ⟨new2, hnew2, hprop2⟩ :=
            ih (scanFileLines terms k p (enumFrom1 1 ls) acc)
          refine ⟨new1 ++ new2, ?_, ?_⟩
          · rw [show scanPathsLoop env terms k (p :: rest) acc =
                scanPathsLoop env terms k rest
                  (scanFileLines terms k p (enumFrom1 1 ls) acc) by
              simp [scanPathsLoop, hbrk, htext, hls]]
            rw [hnew2, hnew1, List.append_assoc]
          · intro h hh
            rcases List.mem_append.1 hh with hh | hh
            · obtain ⟨hp, idx, line, hmem, hline, hmatch, hsnip⟩ := hprop1 h hh
              obtain ⟨hle, hget⟩ := mem_enumFrom1 ls 1 idx line hmem
              exact ⟨ls, line, by rw [hp]; exact hls, by rw [hline]; exact hget,
                hmatch, hsnip⟩
            · exact hprop2 h hh
      · have htext' : isTextFile env p = false := by simpa using htext
        obtain ⟨new, hnew, hprop⟩ := ih acc
        exact ⟨new, by simpa [scanPathsLoop, hbrk, htext'] using hnew, hprop⟩

theorem hasHit_exists (hits : List SearchHit) (p : String) (n : Nat)
    (h : hasHit hits p n = true) : ∃ x ∈ hits, x.path = p ∧ x.line = n := by
  obtain ⟨x, hx, hxe⟩ := List.any_eq_true.1 h
  rw [Bool.and_eq_true] at hxe
  exact ⟨x, hx, by simpa using hxe.1, by simpa using hxe.2⟩

theorem scanFileLines_complete (terms : List String) (k : Nat) (p : String) :
    ∀ entries (acc : List SearchHit),
      (scanFileLines terms k p entries acc).length < k →
      ∀ idx line, (idx, line) ∈ entries →
        (∀ t ∈ terms, containsSubstr (toLowerStr line) t = true) →
        ∃ h ∈ scanFileLines terms k p entries acc, h.path = p ∧ h.line = idx := by
  intro entries
  induction entries with
  | nil => intro acc _ idx line hmem; simp at hmem
  | cons e rest ih =>
    intro acc hlen idx line hmem hmatch
    obtain ⟨i, l⟩ := e
    by_cases hm : terms.all (fun t => containsSubstr (toLowerStr l) t) = true
    · by_cases hdup : hasHit acc p i = true
      · by_cases hbrk : k ≤ acc.length
        · rw [show scanFileLines terms k p ((i, l) :: rest) acc = acc by
            simp [scanFileLines, hm, hdup, hbrk]] at hlen ⊢
          omega
        · have heq : scanFileLines terms k p ((i, l) :: rest) acc =
              scanFileLines terms k p rest acc := by
            simp [scanFileLines, hm, hdup, hbrk]
          rw [heq] at hlen ⊢
          rcases List.mem_cons.1 hmem with hh | hh
          · obtain ⟨h1, h2⟩ := Prod.mk.inj hh
            obtain ⟨x, hx, hxp⟩ := hasHit_exists acc p i hdup
            obtain ⟨new, hnew, _⟩ := scanFileLines_extend terms k p rest acc
            exact ⟨x, by rw [hnew]; exact List.mem_append_left _ hx, hxp.1,
              by rw [h1]; exact hxp.2⟩
          · exact ih acc hlen idx line hh hmatch
      · have hdup' : hasHit acc p i = false := by simpa using hdup
        by_cases hbrk : k ≤ acc.length + 1
        · have heq : scanFileLines terms k p ((i, l) :: rest) acc =
              acc ++ [({ path := p, line := i, snippet := pyStripString l } : SearchHit)] := by
            simp only [scanFileLines, hm, if_true, hdup', Bool.false_eq_true, if_false]
            rw [if_pos (by simpa using hbrk)]
          rw [heq] at hlen
          simp at hlen
          omega
        · have heq : scanFileLines terms k p ((i, l) :: rest) acc =
              scanFileLines terms k p rest
                (acc ++ [({ path := p, line := i, snippet := pyStripString l } : SearchHit)]) := by
            simp only [scanFileLines, hm, if_true, hdup', Bool.false_eq_true, if_false]
            rw [if_neg (by simpa using hbrk)]
          rw [heq] at hlen ⊢
          rcases List.mem_cons.1 hmem with hh | hh
          · obtain ⟨h1, h2⟩ := Prod.mk.inj hh
            obtain ⟨new, hnew, _⟩ := scanFileLines_extend terms k p rest
              (acc ++ [({ path := p, line := i, snippet := pyStripString l } : SearchHit)])
            refine ⟨({ path := p, line := i, snippet := pyStripString l } : SearchHit),
              ?_, rfl, h1.symm⟩
            rw [hnew]
            exact List.mem_append_left _ (by simp)
          · exact ih _ hlen idx line hh hmatch
    · rcases List.mem_cons.1 hmem with hh | hh
      · obtain ⟨h1, h2⟩ := Prod.mk.inj hh
        subst h2
        exact absurd (List.all_eq_true.2 hmatch) (by simpa using hm)
      · have hm' : terms.all (fun t => containsSubstr (toLowerStr l) t) = false := by
          simpa using hm
        have heq : scanFileLines terms k p ((i, l) :: rest) acc =
            scanFileLines terms k p rest acc := by
          simp [scanFileLines, hm']
        rw [heq] at hlen ⊢
        exact ih acc hlen idx line hh hmatch

theorem isTextFile_readable (env : SearchEnv) (p : String)
    (h : isTextFile env p = true) : env.fileLines p ≠ none := by
  intro hnone
  unfold isTextFile at h
  cases hs : env.fileSize p with
  | none => rw [hs] at h; cases h
  | some size =>
    rw [hs, hnone] at h
    by_cases h1 : 256000 < size
    · simp [h1] at h
    · simp [h1] at h

theorem scanPathsLoop_complete (env : SearchEnv) (terms : List String) (k : Nat) :
    ∀ paths (acc : List SearchHit),
      (scanPathsLoop env terms k paths acc).length < k →
      ∀ p ∈ paths, isTextFile env p = true →
        ∀ ls, env.fileLines p = some ls →
          ∀ idx line, (idx, line) ∈ enumFrom1 1 ls →
            (∀ t ∈ terms, containsSubstr (toLowerStr line) t = true) →
            ∃ h ∈ scanPathsLoop env terms k paths acc, h.path = p ∧ h.line = idx := by
  intro paths
  induction paths with
  | nil => intro acc _ p hp; simp at hp
  | cons p0 rest ih =>
    intro acc hlen p hp htext ls hls idx line hmem hmatch
    by_cases hbrk : k ≤ acc.length
    · rw [show scanPathsLoop env terms k (p0 :: rest) acc = acc by
        simp [scanPathsLoop, hbrk]] at hlen ⊢
      omega
    · by_cases htext0 : isTextFile env p0 = true
      · cases hls0 : env.fileLines p0 with
        | none => exact absurd hls0 (isTextFile_readable env p0 htext0)
        | some ls0 =>
          have heq : scanPathsLoop env terms k (p0 :: rest) acc =
              scanPathsLoop env terms k rest
                (scanFileLines terms k p0 (enumFrom1 1 ls0) acc) := by
            simp [scanPathsLoop, hbrk, htext0, hls0]
          rw [heq] at hlen ⊢
          rcases List.mem_cons.1 hp with hh | hh
          · subst hh
            have hls' : ls = ls0 := by
              rw [hls] at hls0
              exact Option.some.inj hls0
            subst hls'
            obtain ⟨new2, hnew2, _⟩ := scanPathsLoop_extend env terms k rest
              (scanFileLines terms k p (enumFrom1 1 ls) acc)
            have hmid : (scanFileLines terms k p (enumFrom1 1 ls) acc).length < k := by
              rw [hnew2] at hlen
              simp at hlen
              omega
            obtain ⟨h, hhmem, hhp⟩ :=
              scanFileLines_complete terms k p (enumFrom1 1 ls) acc hmid idx line hmem hmatch
            exact ⟨h, by rw [hnew2]; exact List.mem_append_left _ hhmem, hhp⟩
          · exact ih _ hlen p hh htext ls hls idx line hmem hmatch
      · have htext0' : isTextFile env p0 = false := by simpa using htext0
        have heq : scanPathsLoop env terms k (p0 :: rest) acc =
            scanPathsLoop env terms k rest acc := by
          simp [scanPathsLoop, hbrk, htext0']
        rw [heq] at hlen ⊢
        rcases List.mem_cons.1 hp with hh | hh
        · subst hh
          rw [htext] at htext0'
          cases htext0'
        · exact ih acc hlen p hh htext ls hls idx line hmem hmatch

/-- C5 (amended).  `search` returns the symbol-index hits (definitions
before usages, per term) followed by linear-scan hits, each scan hit coming
from a line that contains every query token, deduplicated and capped at
`max_results`; the scan is complete for an explicitly supplied path list
while the cap is not reached.  However, when `paths` is not supplied the
registry passes `[]` (and `CodeSearch.search(paths=None)`'s walk iterator
is exhausted by symbol indexing), so the linear scan covers nothing:
`search_code` without `paths` returns no hits at all from a fresh
registry. -/
theorem search_code_ordering_amended (env : SearchEnv) (query : String)
    (ps : List String) (k : Nat) (mr : Option Nat) :
    execute_search_code env query none mr = [] ∧
    (∃ scanHits, codeSearch env query (some ps) k =
        symbolHits env (tokenizeQuery query) ps k ++ scanHits ∧
        ∀ h ∈ scanHits, scanHitProp env (tokenizeQuery query) h) ∧
    (1 ≤ k → (codeSearch env query (some ps) k).length ≤ k) ∧
    ((codeSearch env query (some ps) k).length < k → tokenizeQuery query ≠ [] →
      ∀ p ∈ ps, isTextFile env p = true →
        ∀ ls, env.fileLines p = some ls →
          ∀ idx line, (idx, line) ∈ enumFrom1 1 ls →
            (∀ t ∈ tokenizeQuery query, containsSubstr (toLowerStr line) t = true) →
            ∃ h ∈ codeSearch env query (some ps) k, h.path = p ∧ h.line = idx) := by
  refine ⟨?_, ?_, ?_, ?_⟩
  · unfold execute_search_code codeSearch
    by_cases ht : (tokenizeQuery query).isEmpty = true
    · simp [ht]
    · have ht' : (tokenizeQuery query).isEmpty = false := by simpa using ht
      simp only [ht', Bool.false_eq_true, if_false, Option.getD_none]
      show scanPathsLoop env (tokenizeQuery query) (mr.getD 20) []
        (symbolHits env (tokenizeQuery query) [] (mr.getD 20)) = []
      unfold symbolHits
      rw [show indexEligible env [] [] = [] from rfl]
      rw [symbolHitsLoop_no_files]
      rfl
  · by_cases ht : (tokenizeQuery query).isEmpty = true
    · refine ⟨[], ?_, by simp⟩
      have hterms : tokenizeQuery query = [] := by
        cases h : tokenizeQuery query with
        | nil => rfl
        | cons a as => rw [h] at ht; simp at ht
      unfold codeSearch symbolHits
      rw [hterms]
      simp [symbolHitsLoop]
    · have ht' : (tokenizeQuery query).isEmpty = false := by simpa using ht
      obtain ⟨new, hnew, hprop⟩ := scanPathsLoop_extend env (tokenizeQuery query) k ps
        (symbolHits env (tokenizeQuery query) ps k)
      refine ⟨new, ?_, hprop⟩
      unfold codeSearch
      simp only [ht', Bool.false_eq_true, if_false]
      exact hnew
  · intro hk
    by_cases ht : (tokenizeQuery query).isEmpty = true
    · unfold codeSearch
      simp [ht]
    · have ht' : (tokenizeQuery query).isEmpty = false := by simpa using ht
      unfold codeSearch
      simp only [ht', Bool.false_eq_true, if_false]
      refine scanPathsLoop_len env (tokenizeQuery query) k ps _ ?_
      unfold symbolHits
      exact symbolHitsLoop_len env k _ _ [] (by simpa using hk)
  · intro hlen hterms p hp htext ls hls idx line hmem hmatch
    have ht' : (tokenizeQuery query).isEmpty = false := by
      cases h : tokenizeQuery query with
      | nil => exact absurd h hterms
      | cons a as => rfl
    have heq : codeSearch env query (some ps) k =
        scanPathsLoop env (tokenizeQuery query) k ps
          (symbolHits env (tokenizeQuery query) ps k) := by
      unfold codeSearch
      simp [ht']
    rw [heq] at hlen ⊢
    exact scanPathsLoop_complete env (tokenizeQuery query) k ps _ hlen p hp htext
      ls hls idx line hmem hmatch

/-- Concrete witness for `search_code_ordering_amended`, discharging its
inner hypotheses at the counterexample environment. -/
theorem search_code_ordering_amended_witness :
    execute_search_code cexSearchEnv "alpha beta" none none = [] ∧
    (codeSearch cexSearchEnv "alpha beta" (some ["/r/a.txt"]) 20).length ≤ 20 :=
  ⟨(search_code_ordering_amended cexSearchEnv "alpha beta" ["/r/a.txt"] 20 none).1,
    (search_code_ordering_amended cexSearchEnv "alpha beta" ["/r/a.txt"] 20 none).2.2.1
      (by decide)⟩

/-- JSON values as produced by `json.loads`.  Numbers carry exact decimal
rationals (Python ints are exact; floats are approximated by their decimal
reading, which no checked claim inspects). -/
inductive JVal where
  | str (s : String)
  | num (q : ℚ)
  | bool (b : Bool)
  | null
  | arr (items : List JVal)
  | obj (fields : List (String × JVal))

/-- JSON whitespace (the only characters `json.loads` skips between
tokens). -/
def jsonWs (c : Char) : Bool :=
  c == ' ' || c == '\t' || c == '\n' || c == '\r'

/-- Skip JSON whitespace. -/
def skipWs (l : List Char) : List Char :=
  l.dropWhile jsonWs

/-- Hexadecimal digit value. -/
def hexVal (c : Char) : Option Nat :=
  if '0' ≤ c ∧ c ≤ '9' then some (c.toNat - 48)
  else if 'a' ≤ c ∧ c ≤ 'f' then some (c.toNat - 87)
  else if 'A' ≤ c ∧ c ≤ 'F' then some (c.toNat - 55)
  else none

/-- Decimal reading of a digit run. -/
def digitsToNat (ds : List Char) : Nat :=
  ds.foldl (fun n c => n * 10 + (c.toNat - 48)) 0

/-- JSON string body parser (after the opening quote): standard escapes and
`\uXXXX` (surrogate pairs are out of the claims' scope and read as two code
units). -/
def parseJStringAux : List Char → List Char → Option (String × List Char)
  | [], _ => none
  | c :: cs, acc =>
    if c = '"' then some (⟨acc.reverse⟩, cs)
    else if c = '\\' then
      match cs with
      | [] => none
      | e :: cs2 =>
        if e = '"' then parseJStringAux cs2 ('"' :: acc)
        else if e = '\\' then parseJStringAux cs2 ('\\' :: acc)
        else if e = '/' then parseJStringAux cs2 ('/' :: acc)
        else if e = 'n' then parseJStringAux cs2 ('\n' :: acc)
        else if e = 't' then parseJStringAux cs2 ('\t' :: acc)
        else if e = 'r' then parseJStringAux cs2 ('\r' :: acc)
        else if e = 'b' then parseJStringAux cs2 ('\x08' :: acc)
        else if e = 'f' then parseJStringAux cs2 ('\x0c' :: acc)
        else if e = 'u' then
          match cs2 with
          | h1 :: h2 :: h3 :: h4 :: cs3 =>
            match hexVal h1, hexVal h2, hexVal h3, hexVal h4 with
            | some a, some b, some c2, some d =>
              parseJStringAux cs3 (Char.ofNat ((((a * 16 + b) * 16 + c2) * 16) + d) :: acc)
            | _, _, _, _ => none
          | _ => none
        else none
    else if c.toNat < 32 then none
    else parseJStringAux cs (c :: acc)

/-- JSON number parser: `-? int frac? exp?` with no leading zeros, read as
an exact rational. -/
def parseJNumber (l : List Char) : Option (JVal × List Char) :=
  let p : Bool × List Char :=
    match l with
    | '-' :: r => (true, r)
    | _ => (false, l)
  let ids := p.2.takeWhile Char.isDigit
  let l2 := p.2.dropWhile Char.isDigit
  if ids.isEmpty then none
  else if 1 < ids.length ∧ ids.headD '0' = '0' then none
  else
    let ipart : ℚ := (digitsToNat ids : ℚ)
    let fracRes : Option (ℚ × List Char) :=
      match l2 with
      | '.' :: r =>
        let fds := r.takeWhile Char.isDigit
        if fds.isEmpty then none
        else some (ipart + (digitsToNat fds : ℚ) / ((10 : ℚ) ^ fds.length),
          r.dropWhile Char.isDigit)
      | _ => some (ipart, l2)
    match fracRes with
    | none => none
    | some (base, l3) =>
      let expRes : Option (ℚ × List Char) :=
        match l3 with
        | c :: r =>
          if c = 'e' ∨ c = 'E' then
            let signr : Bool × List Char :=
              match r with
              | '+' :: r2 => (false, r2)
              | '-' :: r2 => (true, r2)
              | _ => (false, r)
            let eds := signr.2.takeWhile Char.isDigit
            if eds.isEmpty then none
            else
              some (if signr.1 then base / ((10 : ℚ) ^ digitsToNat eds)
                else base * ((10 : ℚ) ^ digitsToNat eds),
                signr.2.dropWhile Char.isDigit)
          else some (base, l3)
        | [] => some (base, [])
      match expRes with
      | none => none
      | some pv => some (.num (if p.1 then -pv.1 else pv.1), pv.2)

mutual

/-- JSON value parser; `fuel` bounds the recursion (one unit per nested
value or member, so `length + 1` always suffices). -/
def parseJVal : Nat → List Char → Option (JVal × List Char)
  | 0, _ => none
  | fuel + 1, l =>
    match skipWs l with
    | [] => none
    | c :: cs =>
      if c = '"' then
        match parseJStringAux cs [] with
        | none => none
        | some sr => some (.str sr.1, sr.2)
      else if c = '\x7b' then
        match skipWs cs with
        | '\x7d' :: r => some (.obj [], r)
        | l1 => parseJMembers fuel l1 []
      else if c = '[' then
        match skipWs cs with
        | ']' :: r => some (.arr [], r)
        | l1 => parseJItems fuel l1 []
      else if c = 't' then
        if cs.take 3 = "rue".data then some (.bool true, cs.drop 3) else none
      else if c = 'f' then
        if cs.take 4 = "alse".data then some (.bool false, cs.drop 4) else none
      else if c = 'n' then
        if cs.take 3 = "ull".data then some (.null, cs.drop 3) else none
      else parseJNumber (c :: cs)

/-- JSON object members after the opening brace (at least one member). -/
def parseJMembers : Nat → List Char → List (String × JVal) →
    Option (JVal × List Char)
  | 0, _, _ => none
  | fuel + 1, l, acc =>
    match skipWs l with
    | '"' :: cs =>
      match parseJStringAux cs [] with
      | none => none
      | some kr =>
        match skipWs kr.2 with
        | ':' :: r2 =>
          match parseJVal fuel r2 with
          | none => none
          | some vr =>
            match skipWs vr.2 with
            | ',' :: r4 => parseJMembers fuel r4 (acc ++ [(kr.1, vr.1)])
            | '\x7d' :: r4 => some (.obj (acc ++ [(kr.1, vr.1)]), r4)
            | _ => none
        | _ => none
    | _ => none

/-- JSON array items after the opening bracket (at least one item). -/
def parseJItems : Nat → List Char → List JVal → Option (JVal × List Char)
  | 0, _, _ => none
  | fuel + 1, l, acc =>
    match parseJVal fuel l with
    | none => none
    | some vr =>
      match skipWs vr.2 with
      | ',' :: r2 => parseJItems fuel r2 (acc ++ [vr.1])
      | ']' :: r2 => some (.arr (acc ++ [vr.1]), r2)
      | _ => none

end

/-- `json.loads`: a single value followed only by whitespace. -/
def jsonLoads (s : String) : Option JVal :=
  match parseJVal (s.data.length + 1) s.data with
  | none => none
  | some vr => if (skipWs vr.2).isEmpty then some vr.1 else none

/-- Python dict lookup for a parsed object (duplicate keys: last one
wins). -/
def jObjGet (fields : List (String × JVal)) (k : String) : Option JVal :=
  (fields.reverse.find? (fun e => e.1 == k)).map (·.2)

/-- One ReAct block (`ReActBlock` dataclass).  `action` / `action_input`
hold whatever Python stores there: the JSON value of the `tool` /
`parameters` keys on the structured path, a string action on the
natural-language path. -/
structure ReActBlock where
  thought : String
  action : Option JVal := none
  actionInput : Option JVal := none
  observation : Option String := none

/-- Python `str()` of a JSON value as interpolated into the
`f"Using tool {...}"` thought.  Exact for the string/bool/None values; the
aggregate renderings (Python `repr`) are outside the claims' scope and never
inspected by a theorem. -/
def jDisplay : JVal → String
  | .str s => s
  | .bool true => "True"
  | .bool false => "False"
  | .null => "None"
  | .num q => toString q
  | .arr _ => "<list>"
  | .obj _ => "<dict>"

/-- `simple_tool_pattern = \x7b[^\x7d]*"tool"[^\x7d]*\x7d` `findall`:
at each `\x7b`, the candidate runs to the first `\x7d`; it matches iff the
segment contains the literal `"tool"`; scanning resumes after a match,
or at the next character otherwise. -/
def simpleMatches : Nat → List Char → List String
  | 0, _ => []
  | _, [] => []
  | fuel + 1, c :: cs =>
    if c = '\x7b' then
      let seg := cs.takeWhile (fun d => d ≠ '\x7d')
      let rest := cs.dropWhile (fun d => d ≠ '\x7d')
      match rest with
      | '\x7d' :: r =>
        if hasSub seg "\"tool\"".data then
          (("\x7b" ++ (⟨seg⟩ : String) ++ "\x7d") : String) :: simpleMatches fuel r
        else simpleMatches fuel cs
      | _ => []
    else simpleMatches fuel cs

/-- The closing scan of `tool_call_pattern` (after the opening brace): the
non-greedy `(.*?)\x7d\s*` followed by a fence succeeds at the first `\x7d`
whose whitespace run is followed by three backticks. -/
def fencedFindEnd : List Char → List Char → Option (List Char × List Char)
  | [], _ => none
  | c :: cs, acc =>
    if c = '\x7d' then
      let ws := cs.dropWhile pyIsSpace
      if ws.take 3 = "```".data then some (acc.reverse, ws.drop 3)
      else fencedFindEnd cs ('\x7d' :: acc)
    else fencedFindEnd cs (c :: acc)

/-- `tool_call_pattern = ```json\s*\x7b(.*?)\x7d\s*``` ` `findall`
(DOTALL): the greedy `\s*` never backtracks because whitespace is neither
`\x7b` nor a backtick. -/
def fencedScan : Nat → List Char → List String
  | 0, _ => []
  | _, [] => []
  | fuel + 1, l@(_ :: cs) =>
    if l.take 7 = "```json".data then
      let afterWs := (l.drop 7).dropWhile pyIsSpace
      match afterWs with
      | '\x7b' :: body =>
        match fencedFindEnd body [] with
        | some cr => (⟨cr.1⟩ : String) :: fencedScan fuel cr.2
        | none => fencedScan fuel cs
      | _ => fencedScan fuel cs
    else fencedScan fuel cs

/-- `ReActParser._extract_tool_calls`: fenced ```json blocks first, then
bare brace-delimited candidates; JSON failures are skipped, and only
objects with a `tool` key are kept. -/
def extractToolCalls (response : String) : List (List (String × JVal)) :=
  let keep : String → Option (List (String × JVal)) := fun m =>
    match jsonLoads m with
    | some (.obj fields) =>
      if (jObjGet fields "tool").isSome then some fields else none
    | _ => none
  ((fencedScan (response.data.length + 1) response.data).filterMap
      (fun m => keep ("\x7b" ++ m ++ "\x7d"))) ++
    ((simpleMatches (response.data.length + 1) response.data).filterMap keep)

/-- Case-insensitive literal match at the head (`pat` given lowercase). -/
def ciMatchAt (pat : List Char) (l : List Char) : Bool :=
  (l.take pat.length).map Char.toLower == pat

/-- First index at which a case-insensitive literal occurs. -/
def findCIAux (pat : List Char) : List Char → Nat → Option Nat
  | [], _ => none
  | l@(_ :: rest), i =>
    if ciMatchAt pat l then some i else findCIAux pat rest (i + 1)

/-- The lookahead `(?=\n(?:alt₁|alt₂|…)|$)` at the current position
(`$` matches at the end or before a final trailing newline). -/
def lookaheadAt (alts : List (List Char)) : List Char → Bool
  | [] => true
  | ['\n'] => true
  | '\n' :: rest => alts.any (fun a => ciMatchAt a rest)
  | _ => false

/-- Length of the non-greedy `(.*?)` capture: grow until the lookahead
holds (it always holds at the end of the string). -/
def captureLen (alts : List (List Char)) : List Char → Nat
  | [] => 0
  | l@(_ :: rest) => if lookaheadAt alts l then 0 else 1 + captureLen alts rest

/-- A regex match of the section patterns: start of the literal, the
captured group, and the end of the whole match. -/
structure ReMatch where
  start : Nat
  group : String
  stop : Nat

/-- `pattern.search` for the ReAct section patterns
`lit\s*(.*?)(?=\n(?:alts)|$)` (IGNORECASE, DOTALL): first occurrence of the
literal, maximal whitespace run, then the minimal capture. -/
def searchPattern (lit : List Char) (alts : List (List Char)) (s : List Char) :
    Option ReMatch :=
  match findCIAux lit s 0 with
  | none => none
  | some i =>
    let afterLit := s.drop (i + lit.length)
    let wsLen := (afterLit.takeWhile pyIsSpace).length
    let capStart := afterLit.drop wsLen
    let capLen := captureLen alts capStart
    some { start := i, group := ⟨capStart.take capLen⟩,
           stop := i + lit.length + wsLen + capLen }

/-- Lookahead alternatives of `thought_pattern` (`Action` subsumes
`Action Input`). -/
def thoughtAlts : List (List Char) := ["action".data, "observation".data]

/-- Lookahead alternatives of `action_pattern`. -/
def actionAlts : List (List Char) := ["action input".data, "observation".data]

/-- Lookahead alternatives of `action_input_pattern`. -/
def inputAlts : List (List Char) := ["observation".data]

/-- Lookahead alternatives of `observation_pattern`. -/
def obsAlts : List (List Char) := ["thought".data, "action".data]

/-- `thought_pattern.finditer` start positions (non-overlapping matches). -/
def thoughtStartsAux (s : List Char) : Nat → Nat → List Nat
  | 0, _ => []
  | fuel + 1, pos =>
    match searchPattern "thought:".data thoughtAlts (s.drop pos) with
    | none => []
    | some m => (pos + m.start) :: thoughtStartsAux s fuel (pos + m.stop)

/-- Slices of `s` between consecutive section starts. -/
def sectionsOf (s : List Char) : List Nat → List String
  | [] => []
  | [a] => [⟨s.drop a⟩]
  | a :: b :: rest => (⟨(s.drop a).take (b - a)⟩ : String) :: sectionsOf s (b :: rest)

/-- `ReActParser._split_sections`. -/
def splitSections (s : List Char) : List String :=
  let starts := thoughtStartsAux s (s.length + 1) 0
  if starts.isEmpty then [⟨s⟩] else sectionsOf s starts

/-- Split on a character, keeping empty components (`str.split(sep)`). -/
def splitOnCh (sep : Char) : List Char → List (List Char)
  | [] => [[]]
  | c :: cs =>
    if c = sep then [] :: splitOnCh sep cs
    else
      match splitOnCh sep cs with
      | [] => [[c]]
      | w :: ws => (c :: w) :: ws

/-- `ReActParser._parse_action_input`: JSON first, then `key=value` lines,
then the raw string under an `input` key. -/
def parseActionInput (inputText : String) : JVal :=
  match jsonLoads inputText with
  | some v => v
  | none =>
    if inputText.data.contains '=' then
      .obj (((splitOnCh '\n' inputText.data).filter (fun ln => ln.contains '=')).map
        (fun ln =>
          (pyStripString ⟨ln.takeWhile (fun d => d ≠ '=')⟩,
            JVal.str (pyStripString ⟨(ln.dropWhile (fun d => d ≠ '=')).drop 1⟩))))
    else .obj [("input", .str inputText)]

/-- `ReActParser._parse_section`. -/
def parseSection (sec : String) : Option ReActBlock :=
  let thought :=
    match searchPattern "thought:".data thoughtAlts sec.data with
    | some m => pyStripString m.group
    | none => ""
  let action? := (searchPattern "action:".data actionAlts sec.data).map
    (fun m => pyStripString m.group)
  let actionInput? := (searchPattern "action input:".data inputAlts sec.data).map
    (fun m => parseActionInput (pyStripString m.group))
  let obs? := (searchPattern "observation:".data obsAlts sec.data).map
    (fun m => pyStripString m.group)
  if thought = "" ∧ (action? = none ∨ action? = some "") then none
  else some { thought := thought, action := action?.map JVal.str,
              actionInput := actionInput?, observation := obs? }

/-- The block built from a structured tool call. -/
def blockOfToolCall (fields : List (String × JVal)) : ReActBlock :=
  { thought := "Using tool " ++ jDisplay ((jObjGet fields "tool").getD (.str "unknown")),
    action := jObjGet fields "tool",
    actionInput := some ((jObjGet fields "parameters").getD (.obj [])),
    observation := none }

/-- `ReActParser.parse_response`: structured tool calls first; otherwise the
natural-language `Thought/Action/...` sections. -/
def parse_response (response : String) : List ReActBlock :=
  let toolCalls := extractToolCalls response
  if !toolCalls.isEmpty then toolCalls.map blockOfToolCall
  else (splitSections response.data).filterMap parseSection

/-- `ReActParser.has_tool_calls`. -/
def has_tool_calls (response : String) : Bool :=
  !(extractToolCalls response).isEmpty ||
    (searchPattern "action:".data actionAlts response.data).isSome

/-- First index where three backticks start. -/
def findTripleTick : List Char → Nat → Option Nat
  | [], _ => none
  | l@(_ :: rest), i =>
    if l.take 3 = "```".data then some i else findTripleTick rest (i + 1)

/-- First match (start, length) of `(?:Observation:|```json.*?```)`
(IGNORECASE, DOTALL). -/
def splitterFindAux : List Char → Nat → Option (Nat × Nat)
  | [], _ => none
  | l@(_ :: rest), i =>
    if ciMatchAt "observation:".data l then some (i, 12)
    else if (l.take 7).map Char.toLower = "```json".data then
      match findTripleTick (l.drop 7) 0 with
      | some j => some (i, 7 + j + 3)
      | none => splitterFindAux rest (i + 1)
    else splitterFindAux rest (i + 1)

/-- `re.split` on that pattern. -/
def splitParts : Nat → List Char → List String
  | 0, l => [⟨l⟩]
  | fuel + 1, l =>
    match splitterFindAux l 0 with
    | none => [⟨l⟩]
    | some im => (⟨l.take im.1⟩ : String) :: splitParts fuel (l.drop (im.1 + im.2))

/-- `ReActParser.extract_final_answer`. -/
def extract_final_answer (response : String) : Option String :=
  if has_tool_calls response then
    let parts := splitParts (response.data.length + 1) response.data
    if 1 < parts.length then
      let fa := pyStripString (parts.getLastD "")
      if fa ≠ "" then some fa else none
    else none
  else if 20 < (pyStripString response).length then some (pyStripString response)
  else none

/-- A message that is exactly one `\x7b"tool","parameters"\x7d` JSON object
and nothing else; its `parameters` value is itself an object, so the
message contains a nested closing brace. -/
def bareToolMsg : String :=
  "\x7b\"tool\": \"read_file\", \"parameters\": \x7b\"path\": \"a.py\"\x7d\x7d"

/-- A structured tool call inside a fenced ```json block. -/
def fencedToolMsg : String :=
  "```json\n\x7b\"tool\": \"search_code\", \"parameters\": \x7b\"query\": \"x\"\x7d\x7d\n```"

/-- The fields `_extract_tool_calls` recovers from `fencedToolMsg`. -/
def fencedFields : List (String × JVal) :=
  [("tool", JVal.str "search_code"),
   ("parameters", JVal.obj [("query", JVal.str "x")])]

/-- A final-answer message: no tool call, no `Action:` line, more than 20
non-whitespace characters. -/
def plainAnswerMsg : String :=
  "The subsystem reads manifests before planning stages."

/-- C9 (counterexample): `bareToolMsg` is exactly one
`\x7b"tool","parameters"\x7d` JSON block (the whole message parses as such
an object) and contains nothing else recognizable as an action, yet
`parse_response` yields no block at all — the claim promises exactly one.
The fenced pattern needs ``` fences, and `simple_tool_pattern`
(`\x7b[^\x7d]*"tool"[^\x7d]*\x7d`) cuts the candidate at the first closing
brace of the nested `parameters` object, producing truncated,
unparseable JSON. -/
theorem parser_bare_json_counterexample :
    jsonLoads bareToolMsg =
      some (JVal.obj [("tool", JVal.str "read_file"),
        ("parameters", JVal.obj [("path", JVal.str "a.py")])]) ∧
    extractToolCalls bareToolMsg = [] ∧
    parse_response bareToolMsg = [] :=
  ⟨rfl, rfl, rfl⟩

/-- C9 (amended): when `_extract_tool_calls` does recover exactly one
tool-call object (e.g. from a fenced ```json block whose braces balance
per the truncating patterns), `parse_response` yields exactly one block
whose `action` is the `tool` value and whose `action_input` is the
`parameters` value (default `\x7b\x7d`); and on any message with no
recognizable action and more than 20 non-whitespace-trimmed characters,
`extract_final_answer` returns the stripped message. -/
theorem react_parser_amended (r1 r2 : String) (fields : List (String × JVal))
    (nm : String)
    (h1 : extractToolCalls r1 = [fields])
    (h2 : jObjGet fields "tool" = some (JVal.str nm))
    (h3 : has_tool_calls r2 = false)
    (h4 : 20 < (pyStripString r2).length) :
    parse_response r1 = [blockOfToolCall fields] ∧
    (blockOfToolCall fields).action = some (JVal.str nm) ∧
    (blockOfToolCall fields).actionInput =
      some ((jObjGet fields "parameters").getD (JVal.obj [])) ∧
    extract_final_answer r2 = some (pyStripString r2) := by
  refine ⟨?_, ?_, rfl, ?_⟩
  · simp [parse_response, h1]
  · simp [blockOfToolCall, h2]
  · simp [extract_final_answer, h3, h4]

/-- C9 witness: the fenced message round-trips to one `search_code` block,
and the plain answer message is returned stripped. -/
theorem react_parser_amended_witness :
    parse_response fencedToolMsg = [blockOfToolCall fencedFields] ∧
    (blockOfToolCall fencedFields).action = some (JVal.str "search_code") ∧
    (blockOfToolCall fencedFields).actionInput =
      some ((jObjGet fencedFields "parameters").getD (JVal.obj [])) ∧
    extract_final_answer plainAnswerMsg = some (pyStripString plainAnswerMsg) :=
  react_parser_amended fencedToolMsg plainAnswerMsg fencedFields "search_code"
    rfl rfl rfl (by decide)
